import Mathlib

/-!
Verification of the animation-streamer-builder core: the clip-timeline
scheduler (`buildTimelinePlan`, `groupClips`), the audio segmentation engine
(`analyzeAudio`), the audio realigner (`buildAlignedAudioBuffer`) and the
PCM/WAV encoder (`audioBufferToWav`).

The TypeScript sources are shallowly embedded here.  JavaScript `number`s
that hold times (seconds), loudness values and sample amplitudes are modelled
as exact rationals (`ℚ`); machine integers (sample counts, byte values) are
modelled as `ℕ`/`ℤ` with explicit truncation and `% 2^16` where the source
relies on them.  The scheduler's `while` loop (`coverSegment`) does not
terminate when a clip has non-positive duration (an acknowledged defect of
the source), so it is embedded with an explicit fuel parameter; running out
of fuel is a distinguished outcome (`SchedError.fuelExhausted`) that models
divergence and is proven unreachable once every clip duration is positive.
-/

/-! ## Data model (src/types, as used by the scheduler and audio modules) -/

inductive SegKind where
  | idle
  | talk
deriving DecidableEq, Repr

inductive MotionType where
  | idle
  | idleToSpeech
  | speechLoop
  | speechToIdle
deriving DecidableEq, Repr

structure ClipAsset where
  id : String
  type : MotionType
  duration : ℚ
deriving DecidableEq, Repr

structure AudioSegment where
  id : String
  kind : SegKind
  start : ℚ
  duration : ℚ
deriving DecidableEq, Repr

structure TimelinePlacement where
  clip : ClipAsset
  start : ℚ
deriving DecidableEq, Repr

structure TalkPlan where
  segmentId : String
  videoStart : ℚ
  videoEnd : ℚ
  audioStart : ℚ
  audioDuration : ℚ
deriving DecidableEq, Repr

structure TimelinePlan where
  placements : List TimelinePlacement
  talkPlans : List TalkPlan
  totalDuration : ℚ
deriving DecidableEq, Repr

/-! ## Clip library (`groupClips`, timeline.ts) -/

structure ClipLibrary where
  idle : List ClipAsset
  idleToSpeech : List ClipAsset
  speechLoop : List ClipAsset
  speechToIdle : List ClipAsset
deriving DecidableEq, Repr

def ClipLibrary.pool (lib : ClipLibrary) : MotionType → List ClipAsset
  | .idle => lib.idle
  | .idleToSpeech => lib.idleToSpeech
  | .speechLoop => lib.speechLoop
  | .speechToIdle => lib.speechToIdle

/-- One step of `groupClips`' reduce: `acc[clip.type].push(clip)`. -/
def groupClipsStep (acc : ClipLibrary) (clip : ClipAsset) : ClipLibrary :=
  match clip.type with
  | .idle => { acc with idle := acc.idle ++ [clip] }
  | .idleToSpeech => { acc with idleToSpeech := acc.idleToSpeech ++ [clip] }
  | .speechLoop => { acc with speechLoop := acc.speechLoop ++ [clip] }
  | .speechToIdle => { acc with speechToIdle := acc.speechToIdle ++ [clip] }

/-- `groupClips`: partition a flat clip list by motion type, preserving input
order within each type (the source `reduce`s with `acc[clip.type].push(clip)`). -/
def groupClips (clips : List ClipAsset) : ClipLibrary :=
  clips.foldl groupClipsStep ⟨[], [], [], []⟩

/-! ## Scheduler state (`buildTimelinePlan`'s mutable locals) -/

/-- The per-type usage counters (source: `counters: Record<MotionType, number>`). -/
structure Counters where
  idle : ℕ
  idleToSpeech : ℕ
  speechLoop : ℕ
  speechToIdle : ℕ
deriving DecidableEq, Repr

def Counters.get (c : Counters) : MotionType → ℕ
  | .idle => c.idle
  | .idleToSpeech => c.idleToSpeech
  | .speechLoop => c.speechLoop
  | .speechToIdle => c.speechToIdle

/-- `nextIndex` increments the counter for one type (source: `counter[type] = value + 1`). -/
def Counters.bump (c : Counters) : MotionType → Counters
  | .idle => { c with idle := c.idle + 1 }
  | .idleToSpeech => { c with idleToSpeech := c.idleToSpeech + 1 }
  | .speechLoop => { c with speechLoop := c.speechLoop + 1 }
  | .speechToIdle => { c with speechToIdle := c.speechToIdle + 1 }

inductive SchedError where
  | idleRequired
  | speechLoopRequired
  | missingClip (type : MotionType)
  | fuelExhausted
deriving DecidableEq, Repr

structure SchedState where
  videoCursor : ℚ
  counters : Counters
  placements : List TimelinePlacement
  talkPlans : List TalkPlan
  previousKind : SegKind
deriving DecidableEq, Repr

def initialSchedState : SchedState := ⟨0, ⟨0, 0, 0, 0⟩, [], [], .idle⟩

/-- `takeClip`: round-robin selection `pool[counter % pool.length]`, then a
placement is appended at the current cursor and the cursor advances by the
clip's duration.  The empty-pool guard is the source's
`throw new Error('Missing clip for state: ...')`. -/
def takeClip (lib : ClipLibrary) (ty : MotionType) (st : SchedState) :
    Except SchedError (ClipAsset × SchedState) :=
  match lib.pool ty with
  | [] => .error (.missingClip ty)
  | c :: rest =>
    let list := c :: rest
    let idx := st.counters.get ty
    let clip := list.getD (idx % list.length) c
    .ok (clip,
      { videoCursor := st.videoCursor + clip.duration
        counters := st.counters.bump ty
        placements := st.placements ++ [⟨clip, st.videoCursor⟩]
        talkPlans := st.talkPlans
        previousKind := st.previousKind })

/-- `maybeTakeClip`: no-op returning `null` when the pool is empty. -/
def maybeTakeClip (lib : ClipLibrary) (ty : MotionType) (st : SchedState) :
    Except SchedError (Option ClipAsset × SchedState) :=
  match lib.pool ty with
  | [] => .ok (none, st)
  | _ :: _ =>
    match takeClip lib ty st with
    | .error e => .error e
    | .ok (clip, st') => .ok (some clip, st')

/-- The body of `coverSegment`'s `while (covered + 1e-2 < segment.duration)`
loop, with explicit fuel standing in for the unbounded iteration of the
source (which diverges on non-positive clip durations). -/
def coverLoop (lib : ClipLibrary) (ty : MotionType) (dur : ℚ) :
    ℕ → ℚ → SchedState → Except SchedError SchedState
  | 0, covered, st =>
    if covered + 1/100 < dur then .error .fuelExhausted else .ok st
  | fuel + 1, covered, st =>
    if covered + 1/100 < dur then
      match takeClip lib ty st with
      | .error e => .error e
      | .ok (clip, st') => coverLoop lib ty dur fuel (covered + clip.duration) st'
    else .ok st

/-- `coverSegment`: greedily cover one segment's duration with clips from the
pool matching its kind (`idle` pool for idle segments, `speechLoop` for talk). -/
def coverSegment (lib : ClipLibrary) (fuel : ℕ) (seg : AudioSegment) (st : SchedState) :
    Except SchedError SchedState :=
  coverLoop lib (match seg.kind with | .idle => .idle | .talk => .speechLoop)
    seg.duration fuel 0 st

/-- The `for (let i = 0; i < segments.length; i++)` loop of `buildTimelinePlan`;
`rest.head?` is the source's `segments[i + 1]` lookahead. -/
def buildLoop (lib : ClipLibrary) (fuel : ℕ) :
    List AudioSegment → SchedState → Except SchedError SchedState
  | [], st => .ok st
  | seg :: rest, st =>
    match seg.kind with
    | .idle =>
      match coverSegment lib fuel seg st with
      | .error e => .error e
      | .ok st1 => buildLoop lib fuel rest { st1 with previousKind := .idle }
    | .talk =>
      let step1 : Except SchedError SchedState :=
        match st.previousKind with
        | .idle =>
          match maybeTakeClip lib .idleToSpeech st with
          | .error e => .error e
          | .ok (_, st') => .ok st'
        | .talk => .ok st
      match step1 with
      | .error e => .error e
      | .ok st1 =>
        let segmentVideoStart := st1.videoCursor
        match coverSegment lib fuel seg st1 with
        | .error e => .error e
        | .ok st2 =>
          let st3 := { st2 with
            talkPlans := st2.talkPlans ++
              [⟨seg.id, segmentVideoStart, st2.videoCursor, seg.start, seg.duration⟩] }
          match rest.head? with
          | none =>
            match maybeTakeClip lib .speechToIdle st3 with
            | .error e => .error e
            | .ok (_, st4) => buildLoop lib fuel rest { st4 with previousKind := .idle }
          | some nextSegment =>
            match nextSegment.kind with
            | .idle =>
              match maybeTakeClip lib .speechToIdle st3 with
              | .error e => .error e
              | .ok (_, st4) => buildLoop lib fuel rest { st4 with previousKind := .idle }
            | .talk => buildLoop lib fuel rest { st3 with previousKind := .talk }

/-- `buildTimelinePlan` (timeline.ts): group the clips, require the `idle` and
`speechLoop` pools to be non-empty, then schedule every segment in order. -/
def buildTimelinePlan (fuel : ℕ) (segments : List AudioSegment) (clips : List ClipAsset) :
    Except SchedError TimelinePlan :=
  let library := groupClips clips
  if library.idle = [] then .error .idleRequired
  else if library.speechLoop = [] then .error .speechLoopRequired
  else
    match buildLoop library fuel segments initialSchedState with
    | .error e => .error e
    | .ok st => .ok ⟨st.placements, st.talkPlans, st.videoCursor⟩

/-! ## Fuel monotonicity: a run that succeeds with some fuel is the run of the
source program, and more fuel does not change the result. -/

theorem coverLoop_mono {lib : ClipLibrary} {ty : MotionType} {dur : ℚ} :
    ∀ {n m : ℕ} {covered : ℚ} {st st' : SchedState}, n ≤ m →
      coverLoop lib ty dur n covered st = .ok st' →
      coverLoop lib ty dur m covered st = .ok st' := by
  intro n
  induction n with
  | zero =>
    intro m covered st st' _ h0
    by_cases hc : covered + 1/100 < dur
    · rw [coverLoop, if_pos hc] at h0
      exact absurd h0 (by simp)
    · cases m with
      | zero => exact h0
      | succ m =>
        rw [coverLoop, if_neg hc] at h0
        rw [coverLoop, if_neg hc]
        exact h0
  | succ n ih =>
    intro m covered st st' hnm h0
    cases m with
    | zero => exact absurd hnm (by omega)
    | succ m =>
      rw [coverLoop] at h0 ⊢
      by_cases hc : covered + 1/100 < dur
      · rw [if_pos hc] at h0 ⊢
        cases htc : takeClip lib ty st with
        | error e => simp [htc] at h0
        | ok p =>
          obtain ⟨clip, st2⟩ := p
          simp only [htc] at h0 ⊢
          exact ih (by omega) h0
      · rw [if_neg hc] at h0 ⊢
        exact h0

theorem coverSegment_mono {lib : ClipLibrary} {seg : AudioSegment} {n m : ℕ}
    {st st' : SchedState} (hnm : n ≤ m) (h : coverSegment lib n seg st = .ok st') :
    coverSegment lib m seg st = .ok st' :=
  coverLoop_mono hnm h

theorem buildLoop_mono {lib : ClipLibrary} :
    ∀ {segs : List AudioSegment} {n m : ℕ} {st st' : SchedState}, n ≤ m →
      buildLoop lib n segs st = .ok st' →
      buildLoop lib m segs st = .ok st' := by
  intro segs
  induction segs with
  | nil => intro n m st st' _ h0; exact h0
  | cons seg rest ih =>
    intro n m st st' hnm h0
    obtain ⟨sid, skind, sstart, sdur⟩ := seg
    cases skind with
    | idle =>
      rw [buildLoop] at h0 ⊢
      simp only at h0 ⊢
      cases hcov : coverSegment lib n ⟨sid, .idle, sstart, sdur⟩ st with
      | error e => simp [hcov] at h0
      | ok st1 =>
        rw [hcov] at h0
        rw [coverSegment_mono hnm hcov]
        exact ih hnm h0
    | talk =>
      obtain ⟨cur, ctrs, pls, tps, pk⟩ := st
      rw [buildLoop] at h0 ⊢
      cases pk with
      | idle =>
        dsimp only at h0 ⊢
        cases hmt : maybeTakeClip lib .idleToSpeech ⟨cur, ctrs, pls, tps, .idle⟩ with
        | error e => simp [hmt] at h0
        | ok p =>
          obtain ⟨oc, st1⟩ := p
          simp only [hmt] at h0 ⊢
          cases hcov : coverSegment lib n ⟨sid, .talk, sstart, sdur⟩ st1 with
          | error e => simp [hcov] at h0
          | ok st2 =>
            rw [hcov] at h0
            rw [coverSegment_mono hnm hcov]
            cases rest with
            | nil =>
              simp only [List.head?] at h0 ⊢
              cases hmt2 : maybeTakeClip lib .speechToIdle
                  { st2 with talkPlans := st2.talkPlans ++
                      [⟨sid, st1.videoCursor, st2.videoCursor, sstart, sdur⟩] } with
              | error e => simp [hmt2] at h0
              | ok p =>
                obtain ⟨oc2, st4⟩ := p
                simp only [hmt2] at h0 ⊢
                exact ih hnm h0
            | cons nxt rest2 =>
              simp only [List.head?] at h0 ⊢
              cases hnk : nxt.kind with
              | idle =>
                try rw [hnk] at h0
                try rw [hnk]
                try dsimp only at h0
                try dsimp only
                cases hmt2 : maybeTakeClip lib .speechToIdle
                    { st2 with talkPlans := st2.talkPlans ++
                        [⟨sid, st1.videoCursor, st2.videoCursor, sstart, sdur⟩] } with
                | error e => simp [hmt2] at h0
                | ok p =>
                  obtain ⟨oc2, st4⟩ := p
                  simp only [hmt2] at h0 ⊢
                  exact ih hnm h0
              | talk =>
                try rw [hnk] at h0
                try rw [hnk]
                try dsimp only at h0
                try dsimp only
                exact ih hnm h0
      | talk =>
        dsimp only at h0 ⊢
        cases hcov : coverSegment lib n ⟨sid, .talk, sstart, sdur⟩ ⟨cur, ctrs, pls, tps, .talk⟩ with
        | error e => simp [hcov] at h0
        | ok st2 =>
          rw [hcov] at h0
          rw [coverSegment_mono hnm hcov]
          cases rest with
          | nil =>
            simp only [List.head?] at h0 ⊢
            cases hmt2 : maybeTakeClip lib .speechToIdle
                { st2 with talkPlans := st2.talkPlans ++
                    [⟨sid, cur, st2.videoCursor, sstart, sdur⟩] } with
            | error e => simp [hmt2] at h0
            | ok p =>
              obtain ⟨oc2, st4⟩ := p
              simp only [hmt2] at h0 ⊢
              exact ih hnm h0
          | cons nxt rest2 =>
            simp only [List.head?] at h0 ⊢
            cases hnk : nxt.kind with
            | idle =>
              try rw [hnk] at h0
              try rw [hnk]
              try dsimp only at h0
              try dsimp only
              cases hmt2 : maybeTakeClip lib .speechToIdle
                  { st2 with talkPlans := st2.talkPlans ++
                      [⟨sid, cur, st2.videoCursor, sstart, sdur⟩] } with
              | error e => simp [hmt2] at h0
              | ok p =>
                obtain ⟨oc2, st4⟩ := p
                simp only [hmt2] at h0 ⊢
                exact ih hnm h0
            | talk =>
              try rw [hnk] at h0
              try rw [hnk]
              try dsimp only at h0
              try dsimp only
              exact ih hnm h0

theorem buildTimelinePlan_mono {segs : List AudioSegment} {clips : List ClipAsset}
    {n m : ℕ} {plan : TimelinePlan} (hnm : n ≤ m)
    (h : buildTimelinePlan n segs clips = .ok plan) :
    buildTimelinePlan m segs clips = .ok plan := by
  rw [buildTimelinePlan] at h ⊢
  by_cases h1 : (groupClips clips).idle = []
  · rw [if_pos h1] at h; exact absurd h (by simp)
  · rw [if_neg h1] at h ⊢
    by_cases h2 : (groupClips clips).speechLoop = []
    · rw [if_pos h2] at h; exact absurd h (by simp)
    · rw [if_neg h2] at h ⊢
      cases hb : buildLoop (groupClips clips) n segs initialSchedState with
      | error e => simp [hb] at h
      | ok st =>
        rw [hb] at h
        rw [buildLoop_mono hnm hb]
        exact h

/-! ## C2: the end-to-end scheduling scenario -/

def scIdleClip : ClipAsset := ⟨"idle-a", .idle, 1⟩

def scTransIn : ClipAsset := ⟨"trans-in", .idleToSpeech, 1/5⟩

def scLoopClip : ClipAsset := ⟨"loop-a", .speechLoop, 2/5⟩

def scTransOut : ClipAsset := ⟨"trans-out", .speechToIdle, 1/5⟩

def scClips : List ClipAsset := [scIdleClip, scTransIn, scLoopClip, scTransOut]

def scSegments : List AudioSegment :=
  [⟨"idle-0", .idle, 0, 2⟩, ⟨"talk-1", .talk, 2, 1⟩, ⟨"idle-2", .idle, 3, 1⟩]

/-- The placements, talk plan and total duration the specification expects for
the scenario: idle@0.0, idle@1.0, idleToSpeech@2.0, speechLoop@2.2,
speechLoop@2.6, speechLoop@3.0, speechToIdle@3.4, idle@3.6; one talk plan
`{videoStart 2.2, videoEnd 3.4, audioStart 2.0, audioDuration 1.0}`;
total duration 4.6. -/
def scExpected : TimelinePlan :=
  ⟨[⟨scIdleClip, 0⟩, ⟨scIdleClip, 1⟩, ⟨scTransIn, 2⟩, ⟨scLoopClip, 11/5⟩,
    ⟨scLoopClip, 13/5⟩, ⟨scLoopClip, 3⟩, ⟨scTransOut, 17/5⟩, ⟨scIdleClip, 18/5⟩],
   [⟨"talk-1", 11/5, 17/5, 2, 1⟩], 23/5⟩

/-- Claim C2: with idle pool [1.0s], speechLoop pool [0.4s], idleToSpeech pool
[0.2s], speechToIdle pool [0.2s] and segments [idle 0 for 2.0, talk 2.0 for
1.0, idle 3.0 for 1.0], `buildTimelinePlan` returns exactly the eight expected
placements, exactly one talk plan with videoStart 2.2, videoEnd 3.4,
audioStart 2.0, audioDuration 1.0, and totalDuration 4.6 (for every fuel
budget that lets the coverage loops finish, i.e. any fuel ≥ 8). -/
theorem buildTimelinePlan_scenario (fuel : ℕ) (hfuel : 8 ≤ fuel) :
    buildTimelinePlan fuel scSegments scClips = .ok scExpected := by
  refine buildTimelinePlan_mono hfuel ?_
  norm_num [buildTimelinePlan, buildLoop, coverSegment, coverLoop, takeClip,
    maybeTakeClip, groupClips, groupClipsStep, scClips, scSegments, initialSchedState,
    ClipLibrary.pool, Counters.get, Counters.bump, scIdleClip, scTransIn,
    scLoopClip, scTransOut, scExpected]

/-- Witness for C2 at the concrete fuel bound. -/
theorem buildTimelinePlan_scenario_witness :
    buildTimelinePlan 8 scSegments scClips = .ok scExpected :=
  buildTimelinePlan_scenario 8 (by norm_num)

/-! ## Step specifications for the scheduler primitives -/

def placementsDuration (ps : List TimelinePlacement) : ℚ :=
  (ps.map (fun p => p.clip.duration)).sum

@[simp] theorem placementsDuration_nil : placementsDuration [] = 0 := rfl

@[simp] theorem placementsDuration_cons (p : TimelinePlacement) (ps : List TimelinePlacement) :
    placementsDuration (p :: ps) = p.clip.duration + placementsDuration ps := by
  simp [placementsDuration]

/-- The placements laid down by one coverage loop abut: the first starts at
the cursor, and each next one starts exactly where the previous clip ends
(so no clip is ever split and no gap is introduced). -/
def placementsChained : ℚ → List TimelinePlacement → Prop
  | _, [] => True
  | c, p :: ps => p.start = c ∧ placementsChained (c + p.clip.duration) ps

theorem takeClip_ok {lib : ClipLibrary} {ty : MotionType} {st : SchedState}
    {clip : ClipAsset} {st2 : SchedState}
    (h : takeClip lib ty st = .ok (clip, st2)) :
    clip ∈ lib.pool ty ∧
    st2.videoCursor = st.videoCursor + clip.duration ∧
    st2.placements = st.placements ++ [⟨clip, st.videoCursor⟩] ∧
    st2.talkPlans = st.talkPlans ∧
    st2.previousKind = st.previousKind := by
  rw [takeClip] at h
  cases hp : lib.pool ty with
  | nil => rw [hp] at h; exact absurd h (by simp)
  | cons c r =>
    rw [hp] at h
    simp only [Except.ok.injEq, Prod.mk.injEq] at h
    obtain ⟨rfl, rfl⟩ := h
    have hlt : st.counters.get ty % (c :: r).length < (c :: r).length :=
      Nat.mod_lt _ (by simp)
    refine ⟨?_, rfl, rfl, rfl, rfl⟩
    rw [List.getD_eq_getElem _ _ hlt]
    exact List.getElem_mem hlt

theorem maybeTakeClip_ok {lib : ClipLibrary} {ty : MotionType} {st : SchedState}
    {oc : Option ClipAsset} {st1 : SchedState}
    (h : maybeTakeClip lib ty st = .ok (oc, st1)) :
    st1.talkPlans = st.talkPlans ∧
    st1.previousKind = st.previousKind ∧
    (st1 = st ∨ ∃ clip ∈ lib.pool ty,
      st1.videoCursor = st.videoCursor + clip.duration ∧
      st1.placements = st.placements ++ [⟨clip, st.videoCursor⟩]) := by
  rw [maybeTakeClip] at h
  cases hp : lib.pool ty with
  | nil =>
    rw [hp] at h
    simp only [Except.ok.injEq, Prod.mk.injEq] at h
    obtain ⟨rfl, rfl⟩ := h
    exact ⟨rfl, rfl, Or.inl rfl⟩
  | cons c r =>
    rw [hp] at h
    cases htc : takeClip lib ty st with
    | error e => rw [htc] at h; exact absurd h (by simp)
    | ok p =>
      obtain ⟨clip, st2⟩ := p
      rw [htc] at h
      simp only [Except.ok.injEq, Prod.mk.injEq] at h
      obtain ⟨rfl, rfl⟩ := h
      obtain ⟨hmem, hcur, hpl, htp, hpk⟩ := takeClip_ok htc
      exact ⟨htp, hpk, Or.inr ⟨clip, hp ▸ hmem, hcur, hpl⟩⟩

theorem maybeTakeClip_ne_error {lib : ClipLibrary} {ty : MotionType} {st : SchedState}
    {e : SchedError} : maybeTakeClip lib ty st ≠ .error e := by
  rw [maybeTakeClip]
  cases hp : lib.pool ty with
  | nil => simp
  | cons c r =>
    rw [takeClip, hp]
    simp

/-- Everything a successful coverage loop guarantees: the new placements are
appended, abut from the entry cursor, sum to the cursor advance, leave talk
plans and previous kind untouched, reach at least `dur - 1/100` of cover, and
overshoot `dur` by strictly less than the last placed clip's duration. -/
theorem coverLoop_ok_spec {lib : ClipLibrary} {ty : MotionType} {dur : ℚ} :
    ∀ {fuel : ℕ} {covered : ℚ} {st st' : SchedState},
      coverLoop lib ty dur fuel covered st = .ok st' →
      ∃ ps, st'.placements = st.placements ++ ps ∧
        st'.videoCursor = st.videoCursor + placementsDuration ps ∧
        placementsChained st.videoCursor ps ∧
        st'.talkPlans = st.talkPlans ∧
        st'.previousKind = st.previousKind ∧
        dur ≤ covered + placementsDuration ps + 1/100 ∧
        (∀ lastp, ps.getLast? = some lastp →
          covered + placementsDuration ps < dur + lastp.clip.duration) ∧
        (∀ p ∈ ps, p.clip ∈ lib.pool ty) := by
  intro fuel
  induction fuel with
  | zero =>
    intro covered st st' h
    by_cases hc : covered + 1/100 < dur
    · rw [coverLoop, if_pos hc] at h; exact absurd h (by simp)
    · rw [coverLoop, if_neg hc] at h
      simp only [Except.ok.injEq] at h
      subst h
      exact ⟨[], by simp, by simp, trivial, rfl, rfl, by simpa using not_lt.mp hc,
        by simp, by simp⟩
  | succ fuel ih =>
    intro covered st st' h
    by_cases hc : covered + 1/100 < dur
    · rw [coverLoop, if_pos hc] at h
      cases htc : takeClip lib ty st with
      | error e => rw [htc] at h; exact absurd h (by simp)
      | ok p =>
        obtain ⟨clip, st2⟩ := p
        rw [htc] at h
        dsimp only at h
        obtain ⟨hmem, hcur, hpl, htp, hpk⟩ := takeClip_ok htc
        obtain ⟨ps', h1, h2, h3, h4, h5, h6, h7, h8⟩ := ih h
        refine ⟨⟨clip, st.videoCursor⟩ :: ps', ?_, ?_, ?_, ?_, ?_, ?_, ?_, ?_⟩
        · rw [h1, hpl, List.append_assoc]; rfl
        · rw [h2, hcur]; simp; ring
        · refine ⟨rfl, ?_⟩
          rw [hcur] at h3
          exact h3
        · rw [h4, htp]
        · rw [h5, hpk]
        · simp only [placementsDuration_cons]
          linarith
        · intro lastp hlast
          cases ps' with
          | nil =>
            simp only [List.getLast?_singleton, Option.some.injEq] at hlast
            subst hlast
            show covered + placementsDuration [(⟨clip, st.videoCursor⟩ : TimelinePlacement)] <
              dur + clip.duration
            show covered + (clip.duration + 0) < dur + clip.duration
            linarith
          | cons q qs =>
            rw [List.getLast?_cons_cons] at hlast
            have hlast2 := h7 lastp hlast
            show covered + (clip.duration + placementsDuration (q :: qs)) <
              dur + lastp.clip.duration
            linarith
        · intro p hp
          rcases List.mem_cons.mp hp with rfl | hp'
          · exact hmem
          · exact h8 p hp'
    · rw [coverLoop, if_neg hc] at h
      simp only [Except.ok.injEq] at h
      subst h
      exact ⟨[], by simp, by simp, trivial, rfl, rfl, by simpa using not_lt.mp hc,
        by simp, by simp⟩

/-! ## C3: the greedy coverage bounds -/

/-- Claim C3: for every segment processed by the scheduler (with every clip of
the matching pool of strictly positive duration), the clips placed by the
coverage loop sum to at least `segment.duration - 0.01`, overshoot
`segment.duration` by strictly less than the last placed clip's duration, and
no clip is split: the placements abut, each occupying exactly its clip's
duration starting at the cursor. -/
theorem coverSegment_coverage {lib : ClipLibrary} {fuel : ℕ} {seg : AudioSegment}
    {st st' : SchedState}
    (hpool : ∀ cl ∈ lib.pool (match seg.kind with | .idle => .idle | .talk => .speechLoop),
      0 < cl.duration)
    (h : coverSegment lib fuel seg st = .ok st') :
    ∃ ps, st'.placements = st.placements ++ ps ∧
      seg.duration - 1/100 ≤ placementsDuration ps ∧
      (∀ lastp, ps.getLast? = some lastp →
        placementsDuration ps - seg.duration < lastp.clip.duration) ∧
      placementsChained st.videoCursor ps := by
  obtain ⟨ps, h1, h2, h3, h4, h5, h6, h7, h8⟩ := coverLoop_ok_spec h
  refine ⟨ps, h1, by linarith, ?_, h3⟩
  intro lastp hl
  have := h7 lastp hl
  linarith

def c3LoopClip : ClipAsset := ⟨"c3-loop", .speechLoop, 2/5⟩

def c3Lib : ClipLibrary := ⟨[⟨"c3-idle", .idle, 1⟩], [], [c3LoopClip], []⟩

def c3Seg : AudioSegment := ⟨"c3-talk", .talk, 0, 1⟩

/-- Witness for C3: a concrete coverage run (three 0.4s clips over a 1.0s
segment) satisfying the bounds. -/
theorem coverSegment_coverage_witness :
    ∃ st', coverSegment c3Lib 3 c3Seg initialSchedState = .ok st' ∧
      ∃ ps, st'.placements = initialSchedState.placements ++ ps ∧
        c3Seg.duration - 1/100 ≤ placementsDuration ps ∧
        (∀ lastp, ps.getLast? = some lastp →
          placementsDuration ps - c3Seg.duration < lastp.clip.duration) ∧
        placementsChained initialSchedState.videoCursor ps := by
  have hrun : coverSegment c3Lib 3 c3Seg initialSchedState =
      .ok ⟨6/5, ⟨0, 0, 3, 0⟩, [⟨c3LoopClip, 0⟩, ⟨c3LoopClip, 2/5⟩, ⟨c3LoopClip, 4/5⟩],
        [], .idle⟩ := by
    norm_num [coverSegment, coverLoop, takeClip, c3Lib, c3Seg, c3LoopClip,
      initialSchedState, ClipLibrary.pool, Counters.get, Counters.bump]
  refine ⟨_, hrun, coverSegment_coverage ?_ hrun⟩
  intro cl hcl
  simp only [c3Seg, c3Lib, ClipLibrary.pool, List.mem_singleton] at hcl
  subst hcl
  norm_num [c3LoopClip]

/-! ## Invariants carried through the scheduling pass -/

/-- The (corrected) talk-plan span bound: the scheduled video span covers the
segment's audio duration up to the scheduler's 0.01s epsilon. -/
def tpBound (tp : TalkPlan) : Prop :=
  tp.audioDuration - 1/100 ≤ tp.videoEnd - tp.videoStart

def libNonneg (lib : ClipLibrary) : Prop :=
  ∀ ty : MotionType, ∀ cl ∈ lib.pool ty, 0 ≤ cl.duration

/-- Talk plans are emitted in increasing video order, each span is forward
(videoStart ≤ videoEnd) and already scheduled (videoEnd ≤ cursor). -/
def tpOrdered (st : SchedState) : Prop :=
  List.Pairwise (fun a b => a.videoEnd ≤ b.videoStart) st.talkPlans ∧
  ∀ tp ∈ st.talkPlans, tp.videoStart ≤ tp.videoEnd ∧ tp.videoEnd ≤ st.videoCursor

/-- The facts one scheduling step preserves from state `st` to state `st'`. -/
def SchedRel (lib : ClipLibrary) (st st' : SchedState) : Prop :=
  ((∀ tp ∈ st.talkPlans, tpBound tp) → ∀ tp ∈ st'.talkPlans, tpBound tp) ∧
  ((∀ p ∈ st.placements, ∃ ty, p.clip ∈ lib.pool ty) →
    ∀ p ∈ st'.placements, ∃ ty, p.clip ∈ lib.pool ty) ∧
  (libNonneg lib → st.videoCursor ≤ st'.videoCursor ∧ (tpOrdered st → tpOrdered st'))

theorem SchedRel.refl (lib : ClipLibrary) (st : SchedState) : SchedRel lib st st :=
  ⟨fun h => h, fun h => h, fun _ => ⟨le_refl _, fun h => h⟩⟩

theorem SchedRel.trans {lib : ClipLibrary} {s1 s2 s3 : SchedState}
    (h12 : SchedRel lib s1 s2) (h23 : SchedRel lib s2 s3) : SchedRel lib s1 s3 :=
  ⟨fun h => h23.1 (h12.1 h),
   fun h => h23.2.1 (h12.2.1 h),
   fun hnn => ⟨le_trans (h12.2.2 hnn).1 (h23.2.2 hnn).1,
     fun h => (h23.2.2 hnn).2 ((h12.2.2 hnn).2 h)⟩⟩

theorem tpOrdered_transfer {st st1 : SchedState} (htp : st1.talkPlans = st.talkPlans)
    (hc : st.videoCursor ≤ st1.videoCursor) (h : tpOrdered st) : tpOrdered st1 := by
  obtain ⟨hpw, hb⟩ := h
  refine ⟨htp ▸ hpw, fun tp htp' => ?_⟩
  rw [htp] at htp'
  exact ⟨(hb tp htp').1, le_trans (hb tp htp').2 hc⟩

theorem placementsDuration_nonneg {ps : List TimelinePlacement}
    (h : ∀ p ∈ ps, 0 ≤ p.clip.duration) : 0 ≤ placementsDuration ps := by
  induction ps with
  | nil => simp
  | cons p ps ih =>
    simp only [placementsDuration_cons]
    have h1 := h p (by simp)
    have h2 := ih (fun q hq => h q (by simp [hq]))
    linarith

/-- One successful coverage call, seen through `SchedRel`, together with the
extra facts the talk branch records. -/
theorem coverSegment_step {lib : ClipLibrary} {fuel : ℕ} {seg : AudioSegment}
    {st st1 : SchedState} (h : coverSegment lib fuel seg st = .ok st1) :
    SchedRel lib st st1 ∧ st1.talkPlans = st.talkPlans ∧
    seg.duration - 1/100 ≤ st1.videoCursor - st.videoCursor ∧
    (libNonneg lib → st.videoCursor ≤ st1.videoCursor) := by
  obtain ⟨ps, h1, h2, h3, h4, h5, h6, h7, h8⟩ := coverLoop_ok_spec h
  have hmono : libNonneg lib → st.videoCursor ≤ st1.videoCursor := by
    intro hnn
    have : 0 ≤ placementsDuration ps :=
      placementsDuration_nonneg (fun p hp => hnn _ _ (h8 p hp))
    rw [h2]; linarith
  refine ⟨⟨?_, ?_, ?_⟩, h4, by rw [h2]; linarith, hmono⟩
  · intro hin tp htp
    rw [h4] at htp
    exact hin tp htp
  · intro hin p hp
    rw [h1] at hp
    rcases List.mem_append.mp hp with hold | hnew
    · exact hin p hold
    · exact ⟨_, h8 p hnew⟩
  · intro hnn
    exact ⟨hmono hnn, tpOrdered_transfer h4 (hmono hnn)⟩

theorem maybeTakeClip_step {lib : ClipLibrary} {ty : MotionType} {st : SchedState}
    {oc : Option ClipAsset} {st1 : SchedState}
    (h : maybeTakeClip lib ty st = .ok (oc, st1)) :
    SchedRel lib st st1 ∧ st1.talkPlans = st.talkPlans ∧
    (libNonneg lib → st.videoCursor ≤ st1.videoCursor) := by
  obtain ⟨htp, hpk, hdisj⟩ := maybeTakeClip_ok h
  rcases hdisj with rfl | ⟨clip, hmem, hcur, hpl⟩
  · exact ⟨SchedRel.refl _ _, rfl, fun _ => le_refl _⟩
  · have hmono : libNonneg lib → st.videoCursor ≤ st1.videoCursor := by
      intro hnn
      have := hnn ty clip hmem
      rw [hcur]; linarith
    refine ⟨⟨?_, ?_, ?_⟩, htp, hmono⟩
    · intro hin tp htp'
      rw [htp] at htp'
      exact hin tp htp'
    · intro hin p hp
      rw [hpl] at hp
      rcases List.mem_append.mp hp with hold | hnew
      · exact hin p hold
      · simp only [List.mem_singleton] at hnew
        subst hnew
        exact ⟨ty, hmem⟩
    · intro hnn
      exact ⟨hmono hnn, tpOrdered_transfer htp (hmono hnn)⟩

theorem setPrev_rel (lib : ClipLibrary) (st : SchedState) (k : SegKind) :
    SchedRel lib st { st with previousKind := k } :=
  ⟨fun h => h, fun h => h, fun _ => ⟨le_refl _, tpOrdered_transfer rfl (le_refl _)⟩⟩

/-- Appending the talk plan recorded for a talk segment. -/
theorem pushTalkPlan_rel {lib : ClipLibrary} {st st2 : SchedState} {tpNew : TalkPlan}
    (hR : SchedRel lib st st2)
    (htpeq : st2.talkPlans = st.talkPlans)
    (hvs : libNonneg lib → st.videoCursor ≤ tpNew.videoStart)
    (hvs2 : libNonneg lib → tpNew.videoStart ≤ st2.videoCursor)
    (hveNew : tpNew.videoEnd = st2.videoCursor)
    (hb : tpBound tpNew) :
    SchedRel lib st { st2 with talkPlans := st2.talkPlans ++ [tpNew] } := by
  refine ⟨?_, hR.2.1, ?_⟩
  · intro hin tp htp
    simp only [List.mem_append, List.mem_singleton] at htp
    rcases htp with hold | rfl
    · rw [htpeq] at hold
      exact hin tp hold
    · exact hb
  · intro hnn
    refine ⟨(hR.2.2 hnn).1, ?_⟩
    intro hord
    obtain ⟨hpw, hbnd⟩ := hord
    refine ⟨?_, ?_⟩
    · simp only [List.pairwise_append, List.pairwise_cons]
      refine ⟨htpeq ▸ hpw, by simp, ?_⟩
      intro a ha b hb'
      simp only [List.mem_singleton] at hb'
      subst hb'
      rw [htpeq] at ha
      exact le_trans (hbnd a ha).2 (hvs hnn)
    · intro tp htp
      simp only [List.mem_append, List.mem_singleton] at htp
      rcases htp with hold | rfl
      · rw [htpeq] at hold
        refine ⟨(hbnd tp hold).1, ?_⟩
        exact le_trans (hbnd tp hold).2 (le_trans ((hR.2.2 hnn).1)
          (by exact le_of_eq rfl))
      · exact ⟨by rw [hveNew]; exact hvs2 hnn, by rw [hveNew]⟩

/-- Every successful scheduling pass relates its entry and exit states by
`SchedRel`: talk-plan bounds, placement provenance, cursor monotonicity and
talk-plan ordering are preserved across the whole segment list. -/
theorem buildLoop_rel {lib : ClipLibrary} :
    ∀ {segs : List AudioSegment} {fuel : ℕ} {st st' : SchedState},
      buildLoop lib fuel segs st = .ok st' → SchedRel lib st st' := by
  intro segs
  induction segs with
  | nil =>
    intro fuel st st' h0
    rw [buildLoop] at h0
    simp only [Except.ok.injEq] at h0
    subst h0
    exact SchedRel.refl _ _
  | cons seg rest ih =>
    intro fuel st st' h0
    obtain ⟨sid, skind, sstart, sdur⟩ := seg
    cases skind with
    | idle =>
      rw [buildLoop] at h0
      try dsimp only at h0
      cases hcov : coverSegment lib fuel ⟨sid, .idle, sstart, sdur⟩ st with
      | error e => simp [hcov] at h0
      | ok st1 =>
        rw [hcov] at h0
        try dsimp only at h0
        exact ((coverSegment_step hcov).1.trans (setPrev_rel lib st1 .idle)).trans (ih h0)
    | talk =>
      obtain ⟨cur, ctrs, pls, tps, pk⟩ := st
      rw [buildLoop] at h0
      cases pk with
      | idle =>
        try dsimp only at h0
        cases hmt : maybeTakeClip lib .idleToSpeech ⟨cur, ctrs, pls, tps, .idle⟩ with
        | error e => simp [hmt] at h0
        | ok p =>
          obtain ⟨oc, st1⟩ := p
          simp only [hmt] at h0
          cases hcov : coverSegment lib fuel ⟨sid, .talk, sstart, sdur⟩ st1 with
          | error e => simp [hcov] at h0
          | ok st2 =>
            rw [hcov] at h0
            have S1 := maybeTakeClip_step hmt
            have S2 := coverSegment_step hcov
            have R12 : SchedRel lib ⟨cur, ctrs, pls, tps, .idle⟩ st2 := S1.1.trans S2.1
            have htpeq : st2.talkPlans = tps := by rw [S2.2.1, S1.2.1]
            have hb : tpBound ⟨sid, st1.videoCursor, st2.videoCursor, sstart, sdur⟩ := by
              show sdur - 1/100 ≤ st2.videoCursor - st1.videoCursor
              exact S2.2.2.1
            have R3 := pushTalkPlan_rel R12 htpeq
              (fun hnn => S1.2.2 hnn) (fun hnn => S2.2.2.2 hnn) rfl hb
            cases rest with
            | nil =>
              simp only [List.head?] at h0
              cases hmt2 : maybeTakeClip lib .speechToIdle
                  { st2 with talkPlans := st2.talkPlans ++
                      [⟨sid, st1.videoCursor, st2.videoCursor, sstart, sdur⟩] } with
              | error e => simp [hmt2] at h0
              | ok p =>
                obtain ⟨oc2, st4⟩ := p
                simp only [hmt2] at h0
                exact R3.trans ((maybeTakeClip_step hmt2).1.trans
                  ((setPrev_rel lib st4 .idle).trans (ih h0)))
            | cons nxt rest2 =>
              simp only [List.head?] at h0
              cases hnk : nxt.kind with
              | idle =>
                try rw [hnk] at h0
                try dsimp only at h0
                cases hmt2 : maybeTakeClip lib .speechToIdle
                    { st2 with talkPlans := st2.talkPlans ++
                        [⟨sid, st1.videoCursor, st2.videoCursor, sstart, sdur⟩] } with
                | error e => simp [hmt2] at h0
                | ok p =>
                  obtain ⟨oc2, st4⟩ := p
                  simp only [hmt2] at h0
                  exact R3.trans ((maybeTakeClip_step hmt2).1.trans
                    ((setPrev_rel lib st4 .idle).trans (ih h0)))
              | talk =>
                try rw [hnk] at h0
                try dsimp only at h0
                exact R3.trans ((setPrev_rel lib _ .talk).trans (ih h0))
      | talk =>
        try dsimp only at h0
        cases hcov : coverSegment lib fuel ⟨sid, .talk, sstart, sdur⟩
            ⟨cur, ctrs, pls, tps, .talk⟩ with
        | error e => simp [hcov] at h0
        | ok st2 =>
          rw [hcov] at h0
          have S2 := coverSegment_step hcov
          have htpeq : st2.talkPlans = tps := S2.2.1
          have hb : tpBound ⟨sid, cur, st2.videoCursor, sstart, sdur⟩ := by
            show sdur - 1/100 ≤ st2.videoCursor - cur
            exact S2.2.2.1
          have R3 := pushTalkPlan_rel S2.1 htpeq
            (fun _ => le_refl cur) (fun hnn => S2.2.2.2 hnn) rfl hb
          cases rest with
          | nil =>
            simp only [List.head?] at h0
            cases hmt2 : maybeTakeClip lib .speechToIdle
                { st2 with talkPlans := st2.talkPlans ++
                    [⟨sid, cur, st2.videoCursor, sstart, sdur⟩] } with
            | error e => simp [hmt2] at h0
            | ok p =>
              obtain ⟨oc2, st4⟩ := p
              simp only [hmt2] at h0
              exact R3.trans ((maybeTakeClip_step hmt2).1.trans
                ((setPrev_rel lib st4 .idle).trans (ih h0)))
          | cons nxt rest2 =>
            simp only [List.head?] at h0
            cases hnk : nxt.kind with
            | idle =>
              try rw [hnk] at h0
              try dsimp only at h0
              cases hmt2 : maybeTakeClip lib .speechToIdle
                  { st2 with talkPlans := st2.talkPlans ++
                      [⟨sid, cur, st2.videoCursor, sstart, sdur⟩] } with
              | error e => simp [hmt2] at h0
              | ok p =>
                obtain ⟨oc2, st4⟩ := p
                simp only [hmt2] at h0
                exact R3.trans ((maybeTakeClip_step hmt2).1.trans
                  ((setPrev_rel lib st4 .idle).trans (ih h0)))
            | talk =>
              try rw [hnk] at h0
              try dsimp only at h0
              exact R3.trans ((setPrev_rel lib _ .talk).trans (ih h0))

/-! ## C4: talk-plan span versus audio duration -/

def c4Clips : List ClipAsset := [⟨"c4-idle", .idle, 1⟩, ⟨"c4-loop", .speechLoop, 199/200⟩]

def c4Segs : List AudioSegment := [⟨"c4-talk", .talk, 0, 1⟩]

/-- Counterexample to claim C4 as stated: with a single 0.995s speech-loop
clip and one 1.0s talk segment, the scheduler stops one epsilon short, so the
produced talk plan has `videoEnd - videoStart = 0.995 < 1.0 = audioDuration`. -/
theorem talkPlan_undershoot_cex :
    ∃ plan, buildTimelinePlan 4 c4Segs c4Clips = .ok plan ∧
      ∃ tp ∈ plan.talkPlans, tp.videoEnd - tp.videoStart < tp.audioDuration := by
  refine ⟨⟨[⟨⟨"c4-loop", .speechLoop, 199/200⟩, 0⟩],
    [⟨"c4-talk", 0, 199/200, 0, 1⟩], 199/200⟩, ?_, ?_⟩
  · norm_num [buildTimelinePlan, buildLoop, coverSegment, coverLoop, takeClip,
      maybeTakeClip, groupClips, groupClipsStep, c4Clips, c4Segs, initialSchedState,
      ClipLibrary.pool, Counters.get, Counters.bump]
  · refine ⟨⟨"c4-talk", 0, 199/200, 0, 1⟩, by simp, by norm_num⟩

/-- Claim C4, amended: for every talk plan of a produced timeline plan,
`videoEnd - videoStart ≥ audioDuration - 0.01` — the scheduled span covers the
segment's audio up to the coverage epsilon (the unamended claim without the
epsilon fails, see the counterexample). -/
theorem talkPlan_span_bound {fuel : ℕ} {segs : List AudioSegment} {clips : List ClipAsset}
    {plan : TimelinePlan} (h : buildTimelinePlan fuel segs clips = .ok plan) :
    ∀ tp ∈ plan.talkPlans, tp.audioDuration - 1/100 ≤ tp.videoEnd - tp.videoStart := by
  rw [buildTimelinePlan] at h
  by_cases h1 : (groupClips clips).idle = []
  · rw [if_pos h1] at h; exact absurd h (by simp)
  · rw [if_neg h1] at h
    by_cases h2 : (groupClips clips).speechLoop = []
    · rw [if_pos h2] at h; exact absurd h (by simp)
    · rw [if_neg h2] at h
      cases hb : buildLoop (groupClips clips) fuel segs initialSchedState with
      | error e => rw [hb] at h; exact absurd h (by simp)
      | ok st =>
        rw [hb] at h
        simp only [Except.ok.injEq] at h
        subst h
        have R := buildLoop_rel hb
        exact R.1 (by intro tp htp; simp [initialSchedState] at htp)

/-- Witness for the amended C4 on a concrete scheduling run. -/
theorem talkPlan_span_bound_witness :
    (⟨"c4-talk", 0, 199/200, 0, 1⟩ : TalkPlan).audioDuration - 1/100 ≤
      (⟨"c4-talk", 0, 199/200, 0, 1⟩ : TalkPlan).videoEnd -
        (⟨"c4-talk", 0, 199/200, 0, 1⟩ : TalkPlan).videoStart := by
  have hrun : buildTimelinePlan 4 c4Segs c4Clips =
      .ok ⟨[⟨⟨"c4-loop", .speechLoop, 199/200⟩, 0⟩],
        [⟨"c4-talk", 0, 199/200, 0, 1⟩], 199/200⟩ := by
    norm_num [buildTimelinePlan, buildLoop, coverSegment, coverLoop, takeClip,
      maybeTakeClip, groupClips, groupClipsStep, c4Clips, c4Segs, initialSchedState,
      ClipLibrary.pool, Counters.get, Counters.bump]
  exact talkPlan_span_bound hrun (⟨"c4-talk", 0, 199/200, 0, 1⟩ : TalkPlan) (by simp)

/-! ## C10: the scheduler reads but never rewrites its inputs -/

theorem groupClipsStep_pool_mem {acc : ClipLibrary} {a c : ClipAsset} {ty : MotionType}
    (h : c ∈ (groupClipsStep acc a).pool ty) : c ∈ acc.pool ty ∨ c = a := by
  obtain ⟨aid, aty, adur⟩ := a
  cases aty <;> cases ty <;>
    simp only [groupClipsStep, ClipLibrary.pool, List.mem_append, List.mem_singleton] at h <;>
    tauto

theorem groupClips_go_mem {c : ClipAsset} {ty : MotionType} :
    ∀ {clips : List ClipAsset} {acc : ClipLibrary},
      c ∈ (clips.foldl groupClipsStep acc).pool ty → c ∈ acc.pool ty ∨ c ∈ clips := by
  intro clips
  induction clips with
  | nil => intro acc h; exact Or.inl h
  | cons a l ih =>
    intro acc h
    rw [List.foldl_cons] at h
    rcases ih h with h' | h'
    · rcases groupClipsStep_pool_mem h' with h'' | rfl
      · exact Or.inl h''
      · exact Or.inr (by simp)
    · exact Or.inr (by simp [h'])

theorem groupClips_pool_mem {clips : List ClipAsset} {ty : MotionType} {c : ClipAsset}
    (h : c ∈ (groupClips clips).pool ty) : c ∈ clips := by
  rcases groupClips_go_mem h with h' | h'
  · cases ty <;> simp [ClipLibrary.pool] at h'
  · exact h'

/-- Claim C10: the scheduler is read-only on its inputs.  In this pure
embedding the segment and clip lists are immutable by construction (the source
likewise only reads them: `groupClips` pushes references into fresh arrays and
`takeClip` pushes `{clip, start}` records); the checkable content is that every
placement of the produced plan holds (a reference to) one of the input clip
objects, unchanged. -/
theorem buildTimelinePlan_placements_from_clips {fuel : ℕ} {segs : List AudioSegment}
    {clips : List ClipAsset} {plan : TimelinePlan}
    (h : buildTimelinePlan fuel segs clips = .ok plan) :
    ∀ p ∈ plan.placements, p.clip ∈ clips := by
  rw [buildTimelinePlan] at h
  by_cases h1 : (groupClips clips).idle = []
  · rw [if_pos h1] at h; exact absurd h (by simp)
  · rw [if_neg h1] at h
    by_cases h2 : (groupClips clips).speechLoop = []
    · rw [if_pos h2] at h; exact absurd h (by simp)
    · rw [if_neg h2] at h
      cases hb : buildLoop (groupClips clips) fuel segs initialSchedState with
      | error e => rw [hb] at h; exact absurd h (by simp)
      | ok st =>
        rw [hb] at h
        simp only [Except.ok.injEq] at h
        subst h
        have R := buildLoop_rel hb
        intro p hp
        have := R.2.1 (by intro q hq; simp [initialSchedState] at hq) p hp
        obtain ⟨ty, hmem⟩ := this
        exact groupClips_pool_mem hmem

def c10Clips : List ClipAsset := [⟨"c10-idle", .idle, 1⟩, ⟨"c10-loop", .speechLoop, 1⟩]

def c10Segs : List AudioSegment := [⟨"c10-talk", .talk, 0, 1/2⟩]

/-- Witness for C10 on a concrete run. -/
theorem buildTimelinePlan_placements_from_clips_witness :
    (⟨⟨"c10-loop", .speechLoop, 1⟩, 0⟩ : TimelinePlacement).clip ∈ c10Clips := by
  have hrun : buildTimelinePlan 2 c10Segs c10Clips =
      .ok ⟨[⟨⟨"c10-loop", .speechLoop, 1⟩, 0⟩], [⟨"c10-talk", 0, 1, 0, 1/2⟩], 1⟩ := by
    norm_num [buildTimelinePlan, buildLoop, coverSegment, coverLoop, takeClip,
      maybeTakeClip, groupClips, groupClipsStep, c10Clips, c10Segs, initialSchedState,
      ClipLibrary.pool, Counters.get, Counters.bump]
  exact buildTimelinePlan_placements_from_clips hrun
    (⟨⟨"c10-loop", .speechLoop, 1⟩, 0⟩ : TimelinePlacement) (by simp)

/-! ## C6: configuration errors and the defensive guard -/

theorem takeClip_of_nonempty {lib : ClipLibrary} {ty : MotionType} {st : SchedState}
    (hp : lib.pool ty ≠ []) :
    ∃ clip st2, takeClip lib ty st = .ok (clip, st2) := by
  rw [takeClip]
  cases hpl : lib.pool ty with
  | nil => exact absurd hpl hp
  | cons c r => exact ⟨_, _, rfl⟩

theorem coverLoop_error_shape {lib : ClipLibrary} {ty : MotionType} {dur : ℚ}
    (hp : lib.pool ty ≠ []) :
    ∀ {fuel : ℕ} {covered : ℚ} {st : SchedState} {e : SchedError},
      coverLoop lib ty dur fuel covered st = .error e → e = .fuelExhausted := by
  intro fuel
  induction fuel with
  | zero =>
    intro covered st e h
    by_cases hc : covered + 1/100 < dur
    · rw [coverLoop, if_pos hc] at h
      simp only [Except.error.injEq] at h
      exact h.symm
    · rw [coverLoop, if_neg hc] at h
      exact absurd h (by simp)
  | succ fuel ih =>
    intro covered st e h
    by_cases hc : covered + 1/100 < dur
    · rw [coverLoop, if_pos hc] at h
      obtain ⟨clip, st2, htc⟩ := @takeClip_of_nonempty _ _ st hp
      rw [htc] at h
      dsimp only at h
      exact ih h
    · rw [coverLoop, if_neg hc] at h
      exact absurd h (by simp)

theorem coverSegment_error_shape {lib : ClipLibrary} {fuel : ℕ} {seg : AudioSegment}
    {st : SchedState} {e : SchedError}
    (hidle : lib.idle ≠ []) (hloop : lib.speechLoop ≠ [])
    (h : coverSegment lib fuel seg st = .error e) : e = .fuelExhausted := by
  cases hk : seg.kind with
  | idle =>
    rw [coverSegment, hk] at h
    have hp : lib.pool MotionType.idle ≠ [] := hidle
    exact coverLoop_error_shape hp h
  | talk =>
    rw [coverSegment, hk] at h
    have hp : lib.pool MotionType.speechLoop ≠ [] := hloop
    exact coverLoop_error_shape hp h

theorem buildLoop_error_shape {lib : ClipLibrary}
    (hidle : lib.idle ≠ []) (hloop : lib.speechLoop ≠ []) :
    ∀ {segs : List AudioSegment} {fuel : ℕ} {st : SchedState} {e : SchedError},
      buildLoop lib fuel segs st = .error e → e = .fuelExhausted := by
  intro segs
  induction segs with
  | nil =>
    intro fuel st e h0
    rw [buildLoop] at h0
    exact absurd h0 (by simp)
  | cons seg rest ih =>
    intro fuel st e h0
    obtain ⟨sid, skind, sstart, sdur⟩ := seg
    cases skind with
    | idle =>
      rw [buildLoop] at h0
      try dsimp only at h0
      cases hcov : coverSegment lib fuel ⟨sid, .idle, sstart, sdur⟩ st with
      | error e' =>
        rw [hcov] at h0
        simp only [Except.error.injEq] at h0
        subst h0
        exact coverSegment_error_shape hidle hloop hcov
      | ok st1 =>
        rw [hcov] at h0
        try dsimp only at h0
        exact ih h0
    | talk =>
      obtain ⟨cur, ctrs, pls, tps, pk⟩ := st
      rw [buildLoop] at h0
      cases pk with
      | idle =>
        try dsimp only at h0
        cases hmt : maybeTakeClip lib .idleToSpeech ⟨cur, ctrs, pls, tps, .idle⟩ with
        | error e' => exact absurd hmt maybeTakeClip_ne_error
        | ok p =>
          obtain ⟨oc, st1⟩ := p
          simp only [hmt] at h0
          cases hcov : coverSegment lib fuel ⟨sid, .talk, sstart, sdur⟩ st1 with
          | error e' =>
            rw [hcov] at h0
            simp only [Except.error.injEq] at h0
            subst h0
            exact coverSegment_error_shape hidle hloop hcov
          | ok st2 =>
            rw [hcov] at h0
            cases rest with
            | nil =>
              simp only [List.head?] at h0
              cases hmt2 : maybeTakeClip lib .speechToIdle
                  { st2 with talkPlans := st2.talkPlans ++
                      [⟨sid, st1.videoCursor, st2.videoCursor, sstart, sdur⟩] } with
              | error e' => exact absurd hmt2 maybeTakeClip_ne_error
              | ok p =>
                obtain ⟨oc2, st4⟩ := p
                simp only [hmt2] at h0
                exact ih h0
            | cons nxt rest2 =>
              simp only [List.head?] at h0
              cases hnk : nxt.kind with
              | idle =>
                try rw [hnk] at h0
                try dsimp only at h0
                cases hmt2 : maybeTakeClip lib .speechToIdle
                    { st2 with talkPlans := st2.talkPlans ++
                        [⟨sid, st1.videoCursor, st2.videoCursor, sstart, sdur⟩] } with
                | error e' => exact absurd hmt2 maybeTakeClip_ne_error
                | ok p =>
                  obtain ⟨oc2, st4⟩ := p
                  simp only [hmt2] at h0
                  exact ih h0
              | talk =>
                try rw [hnk] at h0
                try dsimp only at h0
                exact ih h0
      | talk =>
        try dsimp only at h0
        cases hcov : coverSegment lib fuel ⟨sid, .talk, sstart, sdur⟩
            ⟨cur, ctrs, pls, tps, .talk⟩ with
        | error e' =>
          rw [hcov] at h0
          simp only [Except.error.injEq] at h0
          subst h0
          exact coverSegment_error_shape hidle hloop hcov
        | ok st2 =>
          rw [hcov] at h0
          cases rest with
          | nil =>
            simp only [List.head?] at h0
            cases hmt2 : maybeTakeClip lib .speechToIdle
                { st2 with talkPlans := st2.talkPlans ++
                    [⟨sid, cur, st2.videoCursor, sstart, sdur⟩] } with
            | error e' => exact absurd hmt2 maybeTakeClip_ne_error
            | ok p =>
              obtain ⟨oc2, st4⟩ := p
              simp only [hmt2] at h0
              exact ih h0
          | cons nxt rest2 =>
            simp only [List.head?] at h0
            cases hnk : nxt.kind with
            | idle =>
              try rw [hnk] at h0
              try dsimp only at h0
              cases hmt2 : maybeTakeClip lib .speechToIdle
                  { st2 with talkPlans := st2.talkPlans ++
                      [⟨sid, cur, st2.videoCursor, sstart, sdur⟩] } with
              | error e' => exact absurd hmt2 maybeTakeClip_ne_error
              | ok p =>
                obtain ⟨oc2, st4⟩ := p
                simp only [hmt2] at h0
                exact ih h0
            | talk =>
              try rw [hnk] at h0
              try dsimp only at h0
              exact ih h0

theorem exists_pos_lower_bound {l : List ClipAsset} (hne : l ≠ [])
    (hpos : ∀ cl ∈ l, 0 < cl.duration) :
    ∃ δ : ℚ, 0 < δ ∧ ∀ cl ∈ l, δ ≤ cl.duration := by
  induction l with
  | nil => exact absurd rfl hne
  | cons c r ih =>
    cases r with
    | nil =>
      refine ⟨c.duration, hpos c (by simp), ?_⟩
      intro cl hcl
      simp only [List.mem_singleton] at hcl
      subst hcl
      exact le_refl _
    | cons c2 r2 =>
      obtain ⟨δ, hδ, hb⟩ := ih (by simp) (fun cl hcl => hpos cl (by simp [hcl]))
      refine ⟨min c.duration δ, lt_min (hpos c (by simp)) hδ, ?_⟩
      intro cl hcl
      rcases List.mem_cons.mp hcl with rfl | hcl'
      · exact min_le_left _ _
      · exact le_trans (min_le_right _ _) (hb cl hcl')

theorem coverLoop_sufficient {lib : ClipLibrary} {ty : MotionType} {dur : ℚ} {δ : ℚ}
    (hδ : 0 < δ) (hb : ∀ cl ∈ lib.pool ty, δ ≤ cl.duration) (hp : lib.pool ty ≠ []) :
    ∀ (k : ℕ) (covered : ℚ) (st : SchedState), dur ≤ covered + k * δ + 1/100 →
      ∃ st', coverLoop lib ty dur k covered st = .ok st' := by
  intro k
  induction k with
  | zero =>
    intro covered st hk
    refine ⟨st, ?_⟩
    rw [coverLoop, if_neg (not_lt.mpr (by push_cast at hk; linarith))]
  | succ k ih =>
    intro covered st hk
    by_cases hc : covered + 1/100 < dur
    · obtain ⟨clip, st2, htc⟩ := @takeClip_of_nonempty _ _ st hp
      have hcd : δ ≤ clip.duration := hb clip (takeClip_ok htc).1
      obtain ⟨st', hrec⟩ := ih (covered + clip.duration) st2 (by push_cast at hk ⊢; linarith)
      refine ⟨st', ?_⟩
      rw [coverLoop, if_pos hc, htc]
      exact hrec
    · refine ⟨st, ?_⟩
      rw [coverLoop, if_neg hc]

/-- With non-empty required pools and strictly positive clip durations, every
coverage call succeeds once given enough fuel. -/
theorem coverSegment_sufficient {lib : ClipLibrary} {seg : AudioSegment}
    (hidle : lib.idle ≠ []) (hloop : lib.speechLoop ≠ [])
    (hpos : ∀ ty : MotionType, ∀ cl ∈ lib.pool ty, 0 < cl.duration) (st : SchedState) :
    ∃ k st', ∀ m, k ≤ m → coverSegment lib m seg st = .ok st' := by
  set ty : MotionType := match seg.kind with | .idle => .idle | .talk => .speechLoop with hty
  have hp : lib.pool ty ≠ [] := by
    cases hk : seg.kind <;> rw [hty, hk] <;> exact (by assumption)
  obtain ⟨δ, hδ, hb⟩ := exists_pos_lower_bound hp (hpos ty)
  obtain ⟨k0, hk0⟩ := exists_nat_ge ((seg.duration - 1/100) / δ)
  have hcover : seg.duration ≤ 0 + k0 * δ + 1/100 := by
    rw [div_le_iff₀ hδ] at hk0
    linarith
  obtain ⟨st', hrun⟩ := coverLoop_sufficient hδ hb hp k0 0 st hcover
  exact ⟨k0, st', fun m hm => coverLoop_mono hm hrun⟩

theorem maybeTakeClip_total (lib : ClipLibrary) (ty : MotionType) (st : SchedState) :
    ∃ p, maybeTakeClip lib ty st = .ok p := by
  cases h : maybeTakeClip lib ty st with
  | error e => exact absurd h maybeTakeClip_ne_error
  | ok p => exact ⟨p, rfl⟩

theorem buildLoop_sufficient {lib : ClipLibrary}
    (hidle : lib.idle ≠ []) (hloop : lib.speechLoop ≠ [])
    (hpos : ∀ ty : MotionType, ∀ cl ∈ lib.pool ty, 0 < cl.duration) :
    ∀ (segs : List AudioSegment) (st : SchedState),
      ∃ n st', ∀ m, n ≤ m → buildLoop lib m segs st = .ok st' := by
  intro segs
  induction segs with
  | nil => exact fun st => ⟨0, st, fun m _ => by rw [buildLoop]⟩
  | cons seg rest ih =>
    intro st
    obtain ⟨sid, skind, sstart, sdur⟩ := seg
    cases skind with
    | idle =>
      obtain ⟨k, st1, hcov⟩ :=
        @coverSegment_sufficient _ ⟨sid, .idle, sstart, sdur⟩ hidle hloop hpos st
      obtain ⟨n2, st', hrest⟩ := ih { st1 with previousKind := .idle }
      refine ⟨max k n2, st', fun m hm => ?_⟩
      rw [buildLoop]
      dsimp only
      rw [hcov m (le_trans (le_max_left _ _) hm)]
      exact hrest m (le_trans (le_max_right _ _) hm)
    | talk =>
      obtain ⟨cur, ctrs, pls, tps, pk⟩ := st
      cases pk with
      | idle =>
        obtain ⟨⟨oc, st1⟩, hmt⟩ := maybeTakeClip_total lib .idleToSpeech ⟨cur, ctrs, pls, tps, .idle⟩
        obtain ⟨k, st2, hcov⟩ :=
          @coverSegment_sufficient _ ⟨sid, .talk, sstart, sdur⟩ hidle hloop hpos st1
        cases rest with
        | nil =>
          obtain ⟨⟨oc2, st4⟩, hmt2⟩ := maybeTakeClip_total lib .speechToIdle
            { st2 with talkPlans := st2.talkPlans ++
                [⟨sid, st1.videoCursor, st2.videoCursor, sstart, sdur⟩] }
          obtain ⟨n2, st', hrest⟩ := ih { st4 with previousKind := .idle }
          refine ⟨max k n2, st', fun m hm => ?_⟩
          rw [buildLoop]
          dsimp only
          rw [hmt]
          dsimp only
          rw [hcov m (le_trans (le_max_left _ _) hm)]
          dsimp only [List.head?]
          rw [hmt2]
          exact hrest m (le_trans (le_max_right _ _) hm)
        | cons nxt rest2 =>
          cases hnk : nxt.kind with
          | idle =>
            obtain ⟨⟨oc2, st4⟩, hmt2⟩ := maybeTakeClip_total lib .speechToIdle
              { st2 with talkPlans := st2.talkPlans ++
                  [⟨sid, st1.videoCursor, st2.videoCursor, sstart, sdur⟩] }
            obtain ⟨n2, st', hrest⟩ := ih { st4 with previousKind := .idle }
            refine ⟨max k n2, st', fun m hm => ?_⟩
            rw [buildLoop]
            dsimp only
            rw [hmt]
            dsimp only
            rw [hcov m (le_trans (le_max_left _ _) hm)]
            dsimp only [List.head?]
            rw [hnk]
            dsimp only
            rw [hmt2]
            exact hrest m (le_trans (le_max_right _ _) hm)
          | talk =>
            obtain ⟨n2, st', hrest⟩ := ih
              { { st2 with talkPlans := st2.talkPlans ++
                  [(⟨sid, st1.videoCursor, st2.videoCursor, sstart, sdur⟩ : TalkPlan)] } with
                previousKind := .talk }
            refine ⟨max k n2, st', fun m hm => ?_⟩
            rw [buildLoop]
            dsimp only
            rw [hmt]
            dsimp only
            rw [hcov m (le_trans (le_max_left _ _) hm)]
            dsimp only [List.head?]
            rw [hnk]
            dsimp only
            exact hrest m (le_trans (le_max_right _ _) hm)
      | talk =>
        obtain ⟨k, st2, hcov⟩ :=
          @coverSegment_sufficient _ ⟨sid, .talk, sstart, sdur⟩ hidle hloop hpos
            ⟨cur, ctrs, pls, tps, .talk⟩
        cases rest with
        | nil =>
          obtain ⟨⟨oc2, st4⟩, hmt2⟩ := maybeTakeClip_total lib .speechToIdle
            { st2 with talkPlans := st2.talkPlans ++
                [⟨sid, cur, st2.videoCursor, sstart, sdur⟩] }
          obtain ⟨n2, st', hrest⟩ := ih { st4 with previousKind := .idle }
          refine ⟨max k n2, st', fun m hm => ?_⟩
          rw [buildLoop]
          dsimp only
          rw [hcov m (le_trans (le_max_left _ _) hm)]
          dsimp only [List.head?]
          rw [hmt2]
          exact hrest m (le_trans (le_max_right _ _) hm)
        | cons nxt rest2 =>
          cases hnk : nxt.kind with
          | idle =>
            obtain ⟨⟨oc2, st4⟩, hmt2⟩ := maybeTakeClip_total lib .speechToIdle
              { st2 with talkPlans := st2.talkPlans ++
                  [⟨sid, cur, st2.videoCursor, sstart, sdur⟩] }
            obtain ⟨n2, st', hrest⟩ := ih { st4 with previousKind := .idle }
            refine ⟨max k n2, st', fun m hm => ?_⟩
            rw [buildLoop]
            dsimp only
            rw [hcov m (le_trans (le_max_left _ _) hm)]
            dsimp only [List.head?]
            rw [hnk]
            dsimp only
            rw [hmt2]
            exact hrest m (le_trans (le_max_right _ _) hm)
          | talk =>
            obtain ⟨n2, st', hrest⟩ := ih
              { { st2 with talkPlans := st2.talkPlans ++
                  [(⟨sid, cur, st2.videoCursor, sstart, sdur⟩ : TalkPlan)] } with
                previousKind := .talk }
            refine ⟨max k n2, st', fun m hm => ?_⟩
            rw [buildLoop]
            dsimp only
            rw [hcov m (le_trans (le_max_left _ _) hm)]
            dsimp only [List.head?]
            rw [hnk]
            dsimp only
            exact hrest m (le_trans (le_max_right _ _) hm)

/-- Claim C6: `buildTimelinePlan` fails with a configuration error — before any
scheduling, hence with no placements or talk plans — exactly when the `idle`
pool or the `speechLoop` pool built from the clip list is empty; when both are
non-empty the defensive `missingClip` guard inside clip selection is
unreachable for any fuel, and if additionally every clip duration is strictly
positive the scheduler terminates normally (the fuel parameter only models the
source's unbounded loop; success is fuel-independent from some bound on). -/
theorem buildTimelinePlan_config_errors (segs : List AudioSegment) (clips : List ClipAsset) :
    (((groupClips clips).idle = [] ∨ (groupClips clips).speechLoop = []) →
      ∀ fuel, buildTimelinePlan fuel segs clips = .error .idleRequired ∨
        buildTimelinePlan fuel segs clips = .error .speechLoopRequired) ∧
    ((groupClips clips).idle ≠ [] → (groupClips clips).speechLoop ≠ [] →
      (∀ fuel t, buildTimelinePlan fuel segs clips ≠ .error (.missingClip t)) ∧
      ((∀ c ∈ clips, 0 < c.duration) →
        ∃ n plan, ∀ m, n ≤ m → buildTimelinePlan m segs clips = .ok plan)) := by
  constructor
  · intro hemp fuel
    rw [buildTimelinePlan]
    by_cases h1 : (groupClips clips).idle = []
    · rw [if_pos h1]; left; rfl
    · rw [if_neg h1]
      have h2 : (groupClips clips).speechLoop = [] := by tauto
      rw [if_pos h2]; right; rfl
  · intro h1 h2
    constructor
    · intro fuel t h
      rw [buildTimelinePlan, if_neg h1, if_neg h2] at h
      cases hb : buildLoop (groupClips clips) fuel segs initialSchedState with
      | error e =>
        rw [hb] at h
        have he := buildLoop_error_shape h1 h2 hb
        rw [he] at h
        exact absurd h (by simp)
      | ok st => rw [hb] at h; exact absurd h (by simp)
    · intro hposc
      have hpos : ∀ ty : MotionType, ∀ cl ∈ (groupClips clips).pool ty, 0 < cl.duration :=
        fun ty cl hcl => hposc cl (groupClips_pool_mem hcl)
      obtain ⟨n, st', hrun⟩ := buildLoop_sufficient h1 h2 hpos segs initialSchedState
      refine ⟨n, ⟨st'.placements, st'.talkPlans, st'.videoCursor⟩, fun m hm => ?_⟩
      rw [buildTimelinePlan, if_neg h1, if_neg h2, hrun m hm]

def c6Segs : List AudioSegment := [⟨"c6-talk", .talk, 0, 1/2⟩]

def c6BadClips : List ClipAsset := [⟨"c6-loop", .speechLoop, 1⟩]

def c6GoodClips : List ClipAsset := [⟨"c6-idle", .idle, 1⟩, ⟨"c6-loop", .speechLoop, 1⟩]

/-- Witness for C6: a clip list with no idle clip is rejected with the
configuration error, while a complete, positive-duration clip list never hits
the defensive guard and schedules successfully. -/
theorem buildTimelinePlan_config_errors_witness :
    (buildTimelinePlan 1 c6Segs c6BadClips = .error .idleRequired ∨
      buildTimelinePlan 1 c6Segs c6BadClips = .error .speechLoopRequired) ∧
    (∀ fuel t, buildTimelinePlan fuel c6Segs c6GoodClips ≠ .error (.missingClip t)) ∧
    (∃ n plan, ∀ m, n ≤ m → buildTimelinePlan m c6Segs c6GoodClips = .ok plan) := by
  have hbad : (groupClips c6BadClips).idle = [] := by
    norm_num [groupClips, groupClipsStep, c6BadClips, List.foldl]
  have hA : (groupClips c6GoodClips).idle ≠ [] := by
    norm_num [groupClips, groupClipsStep, c6GoodClips, List.foldl]
  have hB : (groupClips c6GoodClips).speechLoop ≠ [] := by
    norm_num [groupClips, groupClipsStep, c6GoodClips, List.foldl]
  have hpos : ∀ c ∈ c6GoodClips, 0 < c.duration := by
    intro c hc
    rcases List.mem_cons.mp hc with rfl | hc'
    · norm_num
    · simp only [c6GoodClips, List.mem_singleton] at hc'
      subst hc'
      norm_num
  refine ⟨(buildTimelinePlan_config_errors c6Segs c6BadClips).1 (Or.inl hbad) 1, ?_, ?_⟩
  · exact ((buildTimelinePlan_config_errors c6Segs c6GoodClips).2 hA hB).1
  · exact ((buildTimelinePlan_config_errors c6Segs c6GoodClips).2 hA hB).2 hpos

/-! ## Audio segmentation (src/lib/audio.ts): constants and talk-segment merge -/

def WINDOW_SIZE_SEC : ℚ := 8/100

def SILENCE_HOLD_BLOCKS : ℕ := 3

def MIN_SEGMENT_DURATION_SEC : ℚ := 1/20

def TALK_GAP_TOLERANCE_SEC : ℚ := 1/20

@[simp] theorem segKind_idle_ne_talk : SegKind.idle ≠ SegKind.talk :=
  fun h => SegKind.noConfusion h

@[simp] theorem segKind_talk_ne_idle : SegKind.talk ≠ SegKind.idle :=
  fun h => SegKind.noConfusion h

/-- The body of `mergeAdjacentTalkSegments`' for-loop: `pending` is the
current last element of `merged` (the only one the loop ever mutates). -/
def mergeLoop (gapTolerance : ℚ) (pending : AudioSegment) :
    List AudioSegment → List AudioSegment
  | [] => [pending]
  | s :: rest =>
    if s.kind = .talk ∧ pending.kind = .talk ∧
        s.start - (pending.start + pending.duration) ≤ gapTolerance + 1/1000000 then
      mergeLoop gapTolerance
        { pending with duration := s.start + s.duration - pending.start } rest
    else pending :: mergeLoop gapTolerance s rest

/-- `mergeAdjacentTalkSegments` (audio.ts): merge adjacent talk segments whose
gap is at most `gapTolerance + 1e-6`, extending the earlier segment's duration
to the later one's end. -/
def mergeAdjacentTalkSegments (segments : List AudioSegment) (gapTolerance : ℚ) :
    List AudioSegment :=
  match segments with
  | [] => segments
  | s :: rest => mergeLoop gapTolerance s rest

theorem mergeLoop_head_eq (tol : ℚ) :
    ∀ (rest : List AudioSegment) (p : AudioSegment),
      ∃ q t, mergeLoop tol p rest = q :: t ∧ q.kind = p.kind ∧ q.start = p.start := by
  intro rest
  induction rest with
  | nil => intro p; exact ⟨p, [], rfl, rfl, rfl⟩
  | cons s r ih =>
    intro p
    rw [mergeLoop]
    by_cases hc : s.kind = .talk ∧ p.kind = .talk ∧
        s.start - (p.start + p.duration) ≤ tol + 1/1000000
    · rw [if_pos hc]
      obtain ⟨q, t, hqt, hk, hs⟩ := ih { p with duration := s.start + s.duration - p.start }
      exact ⟨q, t, hqt, hk, hs⟩
    · rw [if_neg hc]
      exact ⟨p, mergeLoop tol s r, rfl, rfl, rfl⟩

theorem merge_mergeLoop (tol : ℚ) :
    ∀ (rest : List AudioSegment) (p : AudioSegment),
      mergeAdjacentTalkSegments (mergeLoop tol p rest) tol = mergeLoop tol p rest := by
  intro rest
  induction rest with
  | nil => intro p; rfl
  | cons s r ih =>
    intro p
    rw [mergeLoop]
    by_cases hc : s.kind = .talk ∧ p.kind = .talk ∧
        s.start - (p.start + p.duration) ≤ tol + 1/1000000
    · rw [if_pos hc]
      exact ih _
    · rw [if_neg hc]
      obtain ⟨q, t, hqt, hk, hs⟩ := mergeLoop_head_eq tol r s
      have hmq : mergeLoop tol q t = q :: t := by
        have hqs := ih s
        rw [hqt] at hqs
        exact hqs
      rw [hqt]
      rw [mergeAdjacentTalkSegments]
      have hcond' : ¬(q.kind = .talk ∧ p.kind = .talk ∧
          q.start - (p.start + p.duration) ≤ tol + 1/1000000) := by
        rw [hk, hs]
        exact hc
      rw [mergeLoop, if_neg hcond']
      rw [hmq]

/-- Claim C9: applying the talk-segment merge step (with the default 0.05s gap
tolerance) to its own output returns that output unchanged — the merge is
idempotent. -/
theorem mergeAdjacentTalkSegments_idem (segments : List AudioSegment) :
    mergeAdjacentTalkSegments
        (mergeAdjacentTalkSegments segments TALK_GAP_TOLERANCE_SEC)
        TALK_GAP_TOLERANCE_SEC =
      mergeAdjacentTalkSegments segments TALK_GAP_TOLERANCE_SEC := by
  cases segments with
  | nil => rfl
  | cons s rest => exact merge_mergeLoop _ rest s

/-! ## The decoded-audio buffer model and the WAV encoder (`audioBufferToWav`) -/

/-- A decoded Web Audio `AudioBuffer`: per-channel float sample arrays (all of
length `length`), a sample rate, and `duration = length / sampleRate`. -/
structure AudioBufferModel where
  sampleRate : ℕ
  length : ℕ
  channels : List (List ℚ)
deriving DecidableEq, Repr

def AudioBufferModel.numberOfChannels (b : AudioBufferModel) : ℕ := b.channels.length

def AudioBufferModel.duration (b : AudioBufferModel) : ℚ := (b.length : ℚ) / b.sampleRate

def AudioBufferModel.sample (b : AudioBufferModel) (ch i : ℕ) : ℚ :=
  (b.channels.getD ch []).getD i 0

/-- JavaScript's ToIntegerOrInfinity on a finite number: truncation toward 0
(applied by `DataView.setInt16` before wrapping modulo 2^16). -/
def jsTrunc (q : ℚ) : ℤ := if 0 ≤ q then ⌊q⌋ else ⌈q⌉

def u16le (v : ℕ) : List ℕ := [v % 256, v / 256 % 256]

def u32le (v : ℕ) : List ℕ :=
  [v % 256, v / 256 % 256, v / 65536 % 256, v / 16777216 % 256]

/-- Little-endian int16 write: two's-complement wrap modulo 2^16, as
`DataView.setInt16` performs. -/
def i16le (v : ℤ) : List ℕ := u16le (v % 65536).toNat

/-- One sample conversion of `audioBufferToWav`'s inner loop:
`sample = Math.max(-1, Math.min(1, sample))` then
`sample < 0 ? sample * 0x8000 : sample * 0x7fff`, truncated by `setInt16`. -/
def encodeSample (s : ℚ) : ℤ :=
  let c := max (-1) (min 1 s)
  jsTrunc (if c < 0 then c * 32768 else c * 32767)

/-- `audioBufferToWav` (audio.ts): the fixed 44-byte RIFF/WAVE header followed
by the interleaved little-endian 16-bit samples.  The four-character tags are
the `writeString` byte values of RIFF, WAVE, fmt(space) and data. -/
def audioBufferToWav (buffer : AudioBufferModel) : List ℕ :=
  let numChannels := buffer.numberOfChannels
  let sampleRate := buffer.sampleRate
  let format := 1
  let bitDepth := 16
  let samples := buffer.length
  let blockAlign := numChannels * bitDepth / 8
  let byteRate := sampleRate * blockAlign
  let dataSize := samples * blockAlign
  [82, 73, 70, 70] ++ u32le (36 + dataSize) ++
  [87, 65, 86, 69] ++ [102, 109, 116, 32] ++
  u32le 16 ++ u16le format ++ u16le numChannels ++ u32le sampleRate ++
  u32le byteRate ++ u16le blockAlign ++ u16le bitDepth ++
  [100, 97, 116, 97] ++ u32le dataSize ++
  ((List.range samples).map (fun i =>
    ((List.range numChannels).map (fun ch => i16le (encodeSample (buffer.sample ch i)))).flatten)).flatten

def c5Buffer : AudioBufferModel := ⟨8000, 4, [[0, 1, -1, 1/2]]⟩

/-- The byte string claim C5 predicts for `c5Buffer` (its last sample encoded
as 16384). -/
def c5ClaimedBytes : List ℕ :=
  [82, 73, 70, 70] ++ u32le 44 ++ [87, 65, 86, 69] ++ [102, 109, 116, 32] ++
  u32le 16 ++ u16le 1 ++ u16le 1 ++ u32le 8000 ++ u32le 16000 ++ u16le 2 ++ u16le 16 ++
  [100, 97, 116, 97] ++ u32le 8 ++ i16le 0 ++ i16le 32767 ++ i16le (-32768) ++ i16le 16384

/-- The byte string the encoder actually produces for `c5Buffer`: identical
header fields, but the fourth sample is 16383 (0.5 * 32767 = 16383.5 truncated
toward zero by `setInt16`), not 16384. -/
def c5ActualBytes : List ℕ :=
  [82, 73, 70, 70] ++ u32le 44 ++ [87, 65, 86, 69] ++ [102, 109, 116, 32] ++
  u32le 16 ++ u16le 1 ++ u16le 1 ++ u32le 8000 ++ u32le 16000 ++ u16le 2 ++ u16le 16 ++
  [100, 97, 116, 97] ++ u32le 8 ++ i16le 0 ++ i16le 32767 ++ i16le (-32768) ++ i16le 16383

/-- Counterexample to claim C5 as stated: the produced bytes differ from the
claimed ones (at the fourth sample, bytes 50-51: 16383, not 16384). -/
theorem audioBufferToWav_claimed_cex : audioBufferToWav c5Buffer ≠ c5ClaimedBytes := by
  have e0 : encodeSample 0 = 0 := by norm_num [encodeSample, jsTrunc]
  have e1 : encodeSample 1 = 32767 := by norm_num [encodeSample, jsTrunc]
  have e2 : encodeSample (-1) = -32768 := by
    norm_num [encodeSample, jsTrunc]
    rw [show ((-32768 : ℚ)) = ((-32768 : ℤ) : ℚ) by norm_num, Int.ceil_intCast]
  have e3 : encodeSample (1/2) = 16383 := by norm_num [encodeSample, jsTrunc]
  have b0 : i16le 0 = [0, 0] := by norm_num [i16le, u16le]
  have b1 : i16le 32767 = [255, 127] := by norm_num [i16le, u16le]; decide
  have b2 : i16le (-32768) = [0, 128] := by norm_num [i16le, u16le]; decide
  have b3 : i16le 16383 = [255, 63] := by norm_num [i16le, u16le]; decide
  have b4 : i16le 16384 = [0, 64] := by norm_num [i16le, u16le]; decide
  norm_num [audioBufferToWav, c5Buffer, c5ClaimedBytes, u32le, u16le,
    AudioBufferModel.sample, AudioBufferModel.numberOfChannels,
    List.range_succ, e0, e1, e2, e3, b0, b1, b2, b3, b4]

/-- Claim C5, amended: encoding the 1-channel, 8000 Hz buffer
`[0.0, 1.0, -1.0, 0.5]` produces byte-exactly ChunkSize 44, NumChannels 1,
SampleRate 8000, ByteRate 16000, BlockAlign 2, bit depth 16, Subchunk2Size 8,
and little-endian int16 samples 0, 32767, -32768, 16383: each float sample is
clamped to [-1,1], scaled by 32768 (negative) or 32767 (non-negative), then
truncated toward zero, so 0.5 encodes to 16383 rather than the claimed 16384. -/
theorem audioBufferToWav_scenario : audioBufferToWav c5Buffer = c5ActualBytes := by
  have e0 : encodeSample 0 = 0 := by norm_num [encodeSample, jsTrunc]
  have e1 : encodeSample 1 = 32767 := by norm_num [encodeSample, jsTrunc]
  have e2 : encodeSample (-1) = -32768 := by
    norm_num [encodeSample, jsTrunc]
    rw [show ((-32768 : ℚ)) = ((-32768 : ℤ) : ℚ) by norm_num, Int.ceil_intCast]
  have e3 : encodeSample (1/2) = 16383 := by norm_num [encodeSample, jsTrunc]
  have b0 : i16le 0 = [0, 0] := by norm_num [i16le, u16le]
  have b1 : i16le 32767 = [255, 127] := by norm_num [i16le, u16le]; decide
  have b2 : i16le (-32768) = [0, 128] := by norm_num [i16le, u16le]; decide
  have b3 : i16le 16383 = [255, 63] := by norm_num [i16le, u16le]; decide
  have b4 : i16le 16384 = [0, 64] := by norm_num [i16le, u16le]; decide
  norm_num [audioBufferToWav, c5Buffer, c5ActualBytes, u32le, u16le,
    AudioBufferModel.sample, AudioBufferModel.numberOfChannels,
    List.range_succ, e0, e1, e2, e3, b0, b1, b2, b3, b4]

/-! ## `analyzeAudio`: energy windower, threshold estimator and segmenter -/

/-- Model of `Math.sqrt` on the rationals: exact on perfect-square rationals
(the only points where any theorem below evaluates it; the partition theorems
are proven for arbitrary loudness values and thresholds). -/
def ratSqrt (q : ℚ) : ℚ :=
  if q ≤ 0 then 0 else (Nat.sqrt q.num.toNat : ℚ) / (Nat.sqrt q.den : ℚ)

/-- `blockSize = Math.max(1, Math.floor(sampleRate * WINDOW_SIZE_SEC))`. -/
def blockSizeOf (sampleRate : ℕ) : ℕ :=
  max 1 (⌊(sampleRate : ℚ) * WINDOW_SIZE_SEC⌋.toNat)

/-- `blockCount = Math.ceil(totalSamples / blockSize)`. -/
def blockCountOf (totalSamples blockSize : ℕ) : ℕ :=
  ⌈(totalSamples : ℚ) / (blockSize : ℚ)⌉.toNat

/-- The per-window RMS loudness series of `analyzeAudio`'s first loop. -/
def computeRms (buffer : AudioBufferModel) : List ℚ :=
  let blockSize := blockSizeOf buffer.sampleRate
  let totalSamples := buffer.length
  (List.range (blockCountOf totalSamples blockSize)).map (fun block =>
    let start := block * blockSize
    let stop := min (start + blockSize) totalSamples
    let len := stop - start
    if len = 0 then 0
    else
      let sumSquares := (buffer.channels.map (fun data =>
        ((List.range len).map (fun j => data.getD (start + j) 0 ^ 2)).sum)).sum
      ratSqrt (sumSquares / ((len : ℚ) * buffer.numberOfChannels)))

/-- `strongLevel = sorted[Math.max(0, Math.floor(sorted.length * 0.9) - 1)] ?? 0`. -/
def strongLevelOf (rmsValues : List ℚ) : ℚ :=
  let sorted := List.insertionSort (· ≤ ·) rmsValues
  sorted.getD (⌊(sorted.length : ℚ) * (9/10)⌋ - 1).toNat 0

def talkThresholdOf (rmsValues : List ℚ) : ℚ :=
  max (2/100) (strongLevelOf rmsValues * (4/10))

def silenceThresholdOf (talkThreshold : ℚ) : ℚ := talkThreshold * (55/100)

/-- The segmenter's mutable locals: `segments`, `currentKind`, `currentStart`,
`silenceBlocks`. -/
structure ScanState where
  segments : List AudioSegment
  currentKind : SegKind
  currentStart : ℚ
  silenceBlocks : ℕ
deriving DecidableEq, Repr

def kindString : SegKind → String
  | .idle => "idle"
  | .talk => "talk"

/-- `flushSegment(endTime)`: emit `[currentStart, endTime)` with the current
kind unless its duration is ≤ the minimum (then silently drop the range);
either way `currentStart` moves to `endTime`. -/
def flushSegment (endTime : ℚ) (st : ScanState) : ScanState :=
  let duration := endTime - st.currentStart
  if duration ≤ MIN_SEGMENT_DURATION_SEC then { st with currentStart := endTime }
  else
    { st with
      segments := st.segments ++
        [⟨kindString st.currentKind ++ "-" ++ toString st.segments.length,
          st.currentKind, st.currentStart, duration⟩]
      currentStart := endTime }

/-- One iteration of the segmenter's per-window state machine. -/
def stepBlock (talkThreshold silenceThreshold windowDuration bufferDuration : ℚ)
    (block : ℕ) (value : ℚ) (st : ScanState) : ScanState :=
  let blockEnd := min bufferDuration ((block + 1 : ℚ) * windowDuration)
  match st.currentKind with
  | .idle =>
    if talkThreshold ≤ value then
      { flushSegment ((block : ℚ) * windowDuration) st with
        currentKind := .talk, silenceBlocks := 0 }
    else st
  | .talk =>
    if value < silenceThreshold then
      if SILENCE_HOLD_BLOCKS ≤ st.silenceBlocks + 1 then
        { flushSegment blockEnd st with currentKind := .idle, silenceBlocks := 0 }
      else { st with silenceBlocks := st.silenceBlocks + 1 }
    else { st with silenceBlocks := 0 }

def scanBlocks (talkThreshold silenceThreshold windowDuration bufferDuration : ℚ) :
    ℕ → List ℚ → ScanState → ScanState
  | _, [], st => st
  | b, v :: rest, st =>
    scanBlocks talkThreshold silenceThreshold windowDuration bufferDuration
      (b + 1) rest
      (stepBlock talkThreshold silenceThreshold windowDuration bufferDuration b v st)

def rebuildFrom (i : ℕ) : List AudioSegment → List AudioSegment
  | [] => []
  | s :: rest =>
    { s with id := kindString s.kind ++ "-" ++ toString i } :: rebuildFrom (i + 1) rest

/-- `rebuildSegmentIds`: reassign sequential `<kind>-<index>` ids. -/
def rebuildSegmentIds (segments : List AudioSegment) : List AudioSegment :=
  rebuildFrom 0 segments

/-- The segment list accumulated by the scan, after the final forced flush at
the buffer's true duration. -/
def scanSegments (talkThreshold silenceThreshold windowDuration bufferDuration : ℚ)
    (rms : List ℚ) : List AudioSegment :=
  (flushSegment bufferDuration
    (scanBlocks talkThreshold silenceThreshold windowDuration bufferDuration
      0 rms ⟨[], .idle, 0, 0⟩)).segments

/-- The post-pass `unshift`: if the list is empty or does not start with an
idle segment, insert a synthetic leading idle segment. -/
def unshiftIdle (bufferDuration : ℚ) (segs : List AudioSegment) : List AudioSegment :=
  match segs with
  | [] => [⟨"idle-0", .idle, 0, bufferDuration⟩]
  | s :: rest =>
    if s.kind = .idle then s :: rest else ⟨"idle-0", .idle, 0, s.start⟩ :: s :: rest

/-- The segmentation part of `analyzeAudio`: the per-window scan, the final
flush at the buffer's duration, the synthetic leading idle segment, the talk
merge and the id rebuild. -/
def segmentsFromRms (rms : List ℚ)
    (talkThreshold silenceThreshold windowDuration bufferDuration : ℚ) :
    List AudioSegment :=
  rebuildSegmentIds (mergeAdjacentTalkSegments
    (unshiftIdle bufferDuration
      (scanSegments talkThreshold silenceThreshold windowDuration bufferDuration rms))
    TALK_GAP_TOLERANCE_SEC)

structure AudioAnalysisModel where
  segments : List AudioSegment
  rmsValues : List ℚ
  windowDuration : ℚ
  talkThreshold : ℚ
  silenceThreshold : ℚ
deriving DecidableEq, Repr

/-- The pure content of `analyzeAudio` after `decodeAudioData` (which is
external plumbing): windowed RMS, thresholds, and the segment scan. -/
def analyzeAudioModel (buffer : AudioBufferModel) : AudioAnalysisModel :=
  let blockSize := blockSizeOf buffer.sampleRate
  let windowDuration := (blockSize : ℚ) / (buffer.sampleRate : ℚ)
  let rmsValues := computeRms buffer
  let talkThreshold := talkThresholdOf rmsValues
  let silenceThreshold := silenceThresholdOf talkThreshold
  ⟨segmentsFromRms rmsValues talkThreshold silenceThreshold windowDuration buffer.duration,
   rmsValues, windowDuration, talkThreshold, silenceThreshold⟩

/-! ## C8: the windower's block size, count and duration -/

/-- Counterexample to claim C8 as stated: at sample rate 8007 the code's
`Math.floor(sampleRate * 0.08)` gives 640 windows samples, while the claimed
`round` would give 641 (8007 * 0.08 = 640.56). -/
theorem analyzeAudio_window_round_cex :
    (analyzeAudioModel ⟨8007, 0, []⟩).windowDuration ≠
      (max 1 (⌊(8007 : ℚ) * WINDOW_SIZE_SEC + 1/2⌋.toNat) : ℕ) / (8007 : ℚ) := by
  norm_num [analyzeAudioModel, blockSizeOf, WINDOW_SIZE_SEC]
  rw [show ((640 : ℤ).toNat : ℕ) = 640 from rfl, show ((641 : ℤ).toNat : ℕ) = 641 from rfl]
  norm_num

/-- Claim C8, amended: the window size in samples is
`max(1, floor(sampleRate * windowSize))` — floor, not round — with the window
size 0.08s; the loudness series has `ceil(totalSamples / windowSamples)`
entries; the effective window duration is `windowSamples / sampleRate`. -/
theorem analyzeAudio_windowing (buffer : AudioBufferModel) :
    (analyzeAudioModel buffer).windowDuration =
      ((max 1 (⌊(buffer.sampleRate : ℚ) * WINDOW_SIZE_SEC⌋.toNat) : ℕ) : ℚ) /
        (buffer.sampleRate : ℚ) ∧
    (analyzeAudioModel buffer).rmsValues.length =
      ⌈(buffer.length : ℚ) /
        ((max 1 (⌊(buffer.sampleRate : ℚ) * WINDOW_SIZE_SEC⌋.toNat) : ℕ) : ℚ)⌉.toNat := by
  constructor
  · rfl
  · show (computeRms buffer).length = _
    rw [computeRms]
    simp [blockCountOf, blockSizeOf]

/-! ## C1: invariants of the segment scan -/

def segEnd (s : AudioSegment) : ℚ := s.start + s.duration

/-- The segmenter's loop invariant, indexed by the next block `b` to process:
emitted segments are ordered and within `[0, bufferDuration]`, each strictly
longer than the minimum, the last emitted end is at or before both the cursor
and the next block's start time, the cursor stays in `[0, bufferDuration]`,
nothing has been emitted only if the cursor is still 0 (or the whole buffer is
below the minimum segment duration), and the first emitted segment starts
at 0. -/
def scanInv (windowDuration bufferDuration : ℚ) (b : ℕ) (st : ScanState) : Prop :=
  List.Chain' (fun a c => segEnd a ≤ c.start) st.segments ∧
  (∀ s ∈ st.segments,
    0 ≤ s.start ∧ MIN_SEGMENT_DURATION_SEC < s.duration ∧ segEnd s ≤ bufferDuration) ∧
  (∀ s, st.segments.getLast? = some s →
    segEnd s ≤ st.currentStart ∧ segEnd s ≤ (b : ℚ) * windowDuration) ∧
  0 ≤ st.currentStart ∧ st.currentStart ≤ bufferDuration ∧
  (st.segments = [] →
    st.currentStart = 0 ∨ bufferDuration ≤ MIN_SEGMENT_DURATION_SEC) ∧
  (∀ s, st.segments.head? = some s → s.start = 0)

theorem flushSegment_inv {wd dur t B : ℚ} {b : ℕ} {st : ScanState}
    (hI : scanInv wd dur b st)
    (h0t : 0 ≤ t) (htd : t ≤ dur)
    (hlt : ∀ s, st.segments.getLast? = some s → segEnd s ≤ t) (htB : t ≤ B)
    (harm : t ≤ MIN_SEGMENT_DURATION_SEC →
      t = 0 ∨ dur ≤ MIN_SEGMENT_DURATION_SEC) :
    List.Chain' (fun a c => segEnd a ≤ c.start) (flushSegment t st).segments ∧
    (∀ s ∈ (flushSegment t st).segments,
      0 ≤ s.start ∧ MIN_SEGMENT_DURATION_SEC < s.duration ∧ segEnd s ≤ dur) ∧
    (∀ s, (flushSegment t st).segments.getLast? = some s →
      segEnd s ≤ (flushSegment t st).currentStart ∧ segEnd s ≤ B) ∧
    0 ≤ (flushSegment t st).currentStart ∧
    (flushSegment t st).currentStart ≤ dur ∧
    ((flushSegment t st).segments = [] →
      (flushSegment t st).currentStart = 0 ∨ dur ≤ MIN_SEGMENT_DURATION_SEC) ∧
    (∀ s, (flushSegment t st).segments.head? = some s → s.start = 0) := by
  obtain ⟨hchain, hbounds, hlast, hcs0, hcsd, hemp, hhead⟩ := hI
  rw [flushSegment]
  by_cases hd : t - st.currentStart ≤ MIN_SEGMENT_DURATION_SEC
  · rw [if_pos hd]
    refine ⟨hchain, hbounds, ?_, h0t, htd, ?_, hhead⟩
    · intro s hs
      exact ⟨hlt s hs, le_trans (hlt s hs) htB⟩
    · intro hsegs
      rcases hemp hsegs with hz | hD
      · rcases harm (by rw [hz] at hd; linarith) with hz' | hD'
        · exact Or.inl hz'
        · exact Or.inr hD'
      · exact Or.inr hD
  · rw [if_neg hd]
    push_neg at hd
    constructor
    · rw [List.chain'_append]
      refine ⟨hchain, by simp, ?_⟩
      intro x hx y hy
      simp only [List.head?_cons, Option.mem_def, Option.some.injEq] at hy
      subst hy
      exact (hlast x (by simpa using hx)).1
    constructor
    · intro s hs
      rcases List.mem_append.mp hs with hold | hnew
      · exact hbounds s hold
      · simp only [List.mem_singleton] at hnew
        subst hnew
        refine ⟨hcs0, hd, ?_⟩
        show st.currentStart + (t - st.currentStart) ≤ dur
        linarith
    constructor
    · intro s hs
      dsimp only at hs
      rw [List.getLast?_concat] at hs
      simp only [Option.some.injEq] at hs
      subst hs
      constructor
      · show st.currentStart + (t - st.currentStart) ≤ t
        linarith
      · show st.currentStart + (t - st.currentStart) ≤ B
        linarith
    refine ⟨h0t, htd, by simp, ?_⟩
    · intro s hs
      cases hsg : st.segments with
      | nil =>
        rw [hsg] at hs
        simp only [List.nil_append, List.head?_cons, Option.some.injEq] at hs
        subst hs
        rcases hemp hsg with hz | hD
        · exact hz
        · exfalso
          have := hcs0
          linarith
      | cons s0 rest =>
        rw [hsg] at hs
        simp only [List.cons_append, List.head?_cons, Option.some.injEq] at hs
        subst hs
        exact hhead s0 (by rw [hsg]; rfl)

theorem scanInv_mono_b {wd dur : ℚ} {b : ℕ} {st : ScanState}
    (hwd0 : 0 ≤ wd) (hI : scanInv wd dur b st) : scanInv wd dur (b + 1) st := by
  obtain ⟨hchain, hbounds, hlast, hcs0, hcsd, hemp, hhead⟩ := hI
  refine ⟨hchain, hbounds, ?_, hcs0, hcsd, hemp, hhead⟩
  intro s hs
  refine ⟨(hlast s hs).1, le_trans (hlast s hs).2 ?_⟩
  have : (b : ℚ) ≤ ((b + 1 : ℕ) : ℚ) := by push_cast; linarith
  exact mul_le_mul_of_nonneg_right this hwd0

theorem stepBlock_inv {talkT silT wd dur : ℚ} {b : ℕ} {v : ℚ} {st : ScanState}
    (hwd : MIN_SEGMENT_DURATION_SEC < wd) (hdur : 0 ≤ dur)
    (hbd : (b : ℚ) * wd ≤ dur)
    (hI : scanInv wd dur b st) :
    scanInv wd dur (b + 1) (stepBlock talkT silT wd dur b v st) := by
  have hmin0 : (0 : ℚ) < MIN_SEGMENT_DURATION_SEC := by norm_num [MIN_SEGMENT_DURATION_SEC]
  have hwd0 : (0 : ℚ) ≤ wd := by linarith
  have hb0 : (0 : ℚ) ≤ (b : ℚ) := by positivity
  have hbw0 : (0 : ℚ) ≤ (b : ℚ) * wd := mul_nonneg hb0 hwd0
  have hbsucc : (b : ℚ) * wd ≤ ((b + 1 : ℕ) : ℚ) * wd := by
    have : (b : ℚ) ≤ ((b + 1 : ℕ) : ℚ) := by push_cast; linarith
    exact mul_le_mul_of_nonneg_right this hwd0
  have hsucc0 : (0 : ℚ) ≤ ((b + 1 : ℕ) : ℚ) * wd := le_trans hbw0 hbsucc
  have hwsucc : wd ≤ ((b + 1 : ℕ) : ℚ) * wd := by
    have h1 : (1 : ℚ) ≤ ((b + 1 : ℕ) : ℚ) := by push_cast; linarith
    nlinarith
  obtain ⟨segs, ck, cs, sb⟩ := st
  cases ck with
  | idle =>
    rw [stepBlock]
    dsimp only
    by_cases hv : talkT ≤ v
    · rw [if_pos hv]
      have H := flushSegment_inv (t := (b : ℚ) * wd) (B := ((b + 1 : ℕ) : ℚ) * wd)
        hI hbw0 hbd (fun s hs => (hI.2.2.1 s hs).2) hbsucc ?_
      · exact ⟨H.1, H.2.1, H.2.2.1, H.2.2.2.1, H.2.2.2.2.1, H.2.2.2.2.2.1,
          H.2.2.2.2.2.2⟩
      · intro hle
        rcases Nat.eq_zero_or_pos b with rfl | hbpos
        · exact Or.inl (by push_cast; ring)
        · exfalso
          have h1 : (1 : ℚ) ≤ (b : ℚ) := by exact_mod_cast hbpos
          nlinarith
    · rw [if_neg hv]
      exact scanInv_mono_b hwd0 hI
  | talk =>
    rw [stepBlock]
    dsimp only
    by_cases hv : v < silT
    · rw [if_pos hv]
      by_cases hsb : SILENCE_HOLD_BLOCKS ≤ sb + 1
      · rw [if_pos hsb]
        have H := flushSegment_inv (t := min dur ((b + 1 : ℚ) * wd))
          (B := ((b + 1 : ℕ) : ℚ) * wd) hI
          (le_min hdur (by push_cast at hsucc0 ⊢; linarith))
          (min_le_left _ _)
          (fun s hs => le_trans (hI.2.2.1 s hs).2
            (le_min hbd (by push_cast; nlinarith)))
          (by push_cast; exact min_le_right _ _)
          ?_
        · exact ⟨H.1, H.2.1, H.2.2.1, H.2.2.2.1, H.2.2.2.2.1, H.2.2.2.2.2.1,
            H.2.2.2.2.2.2⟩
        · intro hle
          rcases le_total dur ((b + 1 : ℚ) * wd) with hmd | hmd
          · rw [min_eq_left hmd] at hle
            exact Or.inr hle
          · rw [min_eq_right hmd] at hle
            exfalso
            push_cast at hwsucc
            linarith
      · rw [if_neg hsb]
        exact scanInv_mono_b hwd0 hI
    · rw [if_neg hv]
      exact scanInv_mono_b hwd0 hI

theorem scanBlocks_inv {talkT silT wd dur : ℚ}
    (hwd : MIN_SEGMENT_DURATION_SEC < wd) (hdur : 0 ≤ dur) :
    ∀ (values : List ℚ) (b : ℕ) (st : ScanState),
      (∀ j : ℕ, j < b + values.length → (j : ℚ) * wd ≤ dur) →
      scanInv wd dur b st →
      scanInv wd dur (b + values.length)
        (scanBlocks talkT silT wd dur b values st) := by
  intro values
  induction values with
  | nil => intro b st _ hI; simpa [scanBlocks] using hI
  | cons v rest ih =>
    intro b st hj hI
    rw [scanBlocks]
    have hstep := @stepBlock_inv talkT silT wd dur b v st hwd hdur
      (hj b (by simp)) hI
    have := ih (b + 1) _ (fun j hjlt => hj j (by simpa [Nat.add_assoc] using by omega)) hstep
    simpa [Nat.add_assoc, Nat.add_comm, Nat.add_left_comm] using this

/-- The (amended) soundness of the produced segment list: weakly ordered and
non-overlapping, inside `[0, bufferDuration]`, non-empty, and opening with an
idle segment at time 0. -/
def segsSound (dur : ℚ) (l : List AudioSegment) : Prop :=
  List.Chain' (fun a c => segEnd a ≤ c.start) l ∧
  (∀ s ∈ l, 0 ≤ s.start ∧ 0 ≤ s.duration ∧ segEnd s ≤ dur) ∧
  l ≠ [] ∧
  (∀ s, l.head? = some s → s.start = 0 ∧ s.kind = .idle)

theorem scanInv_init {wd dur : ℚ} (hdur : 0 ≤ dur) :
    scanInv wd dur 0 ⟨[], .idle, 0, 0⟩ := by
  refine ⟨by simp, by simp, by simp, le_refl _, hdur, fun _ => Or.inl rfl, by simp⟩

/-- After the scan and the final forced flush, the emitted segments are
ordered, bounded, have the first start at 0 and nonnegative spans. -/
theorem scanSegments_props {talkT silT wd dur : ℚ} {rms : List ℚ}
    (hwd : MIN_SEGMENT_DURATION_SEC < wd) (hdur : 0 ≤ dur)
    (hj : ∀ j : ℕ, j < rms.length → (j : ℚ) * wd ≤ dur) :
    List.Chain' (fun a c => segEnd a ≤ c.start) (scanSegments talkT silT wd dur rms) ∧
    (∀ s ∈ scanSegments talkT silT wd dur rms,
      0 ≤ s.start ∧ MIN_SEGMENT_DURATION_SEC < s.duration ∧ segEnd s ≤ dur) ∧
    (∀ s, (scanSegments talkT silT wd dur rms).head? = some s → s.start = 0) := by
  have hscan := @scanBlocks_inv talkT silT wd dur hwd hdur rms 0
    ⟨[], .idle, 0, 0⟩ (by simpa using hj) (scanInv_init hdur)
  have hlt : ∀ s, (scanBlocks talkT silT wd dur 0 rms
      ⟨[], .idle, 0, 0⟩).segments.getLast? = some s → segEnd s ≤ dur := by
    intro s hs
    exact (hscan.2.1 s (List.mem_of_mem_getLast? hs)).2.2
  have H := flushSegment_inv (t := dur) (B := dur) hscan hdur (le_refl _) hlt (le_refl _)
    (fun hle => Or.inr hle)
  exact ⟨H.1, H.2.1, H.2.2.2.2.2.2⟩

theorem unshiftIdle_sound {talkT silT wd dur : ℚ} {rms : List ℚ}
    (hwd : MIN_SEGMENT_DURATION_SEC < wd) (hdur : 0 ≤ dur)
    (hj : ∀ j : ℕ, j < rms.length → (j : ℚ) * wd ≤ dur) :
    segsSound dur (unshiftIdle dur (scanSegments talkT silT wd dur rms)) := by
  obtain ⟨hchain, hbounds, hhead⟩ := @scanSegments_props talkT silT wd dur rms
    hwd hdur hj
  have hmin0 : (0 : ℚ) < MIN_SEGMENT_DURATION_SEC := by norm_num [MIN_SEGMENT_DURATION_SEC]
  rw [unshiftIdle.eq_def]
  cases hsg : scanSegments talkT silT wd dur rms with
  | nil =>
    refine ⟨by simp, ?_, by simp, ?_⟩
    · intro s hs
      simp only [List.mem_singleton] at hs
      subst hs
      exact ⟨le_refl _, hdur, by simpa [segEnd] using hdur⟩
    · intro s hs
      simp only [List.head?_cons, Option.some.injEq] at hs
      subst hs
      exact ⟨rfl, rfl⟩
  | cons s0 rest =>
    rw [hsg] at hchain hbounds hhead
    dsimp only
    by_cases hk : s0.kind = .idle
    · rw [if_pos hk]
      refine ⟨hchain, ?_, by simp, ?_⟩
      · intro s hs
        obtain ⟨h1, h2, h3⟩ := hbounds s hs
        exact ⟨h1, by linarith, h3⟩
      · intro s hs
        simp only [List.head?_cons, Option.some.injEq] at hs
        subst hs
        exact ⟨hhead _ rfl, hk⟩
    · rw [if_neg hk]
      obtain ⟨hb1, hb2, hb3⟩ := hbounds s0 (by simp)
      refine ⟨?_, ?_, by simp, ?_⟩
      · rw [List.chain'_cons]
        refine ⟨?_, hchain⟩
        show (0 : ℚ) + s0.start ≤ s0.start
        linarith
      · intro s hs
        rcases List.mem_cons.mp hs with rfl | hs'
        · refine ⟨le_refl _, hb1, ?_⟩
          show (0 : ℚ) + s0.start ≤ dur
          have : segEnd s0 ≤ dur := hb3
          rw [segEnd] at this
          linarith
        · obtain ⟨h1, h2, h3⟩ := hbounds s hs'
          exact ⟨h1, by linarith, h3⟩
      · intro s hs
        simp only [List.head?_cons, Option.some.injEq] at hs
        subst hs
        exact ⟨rfl, rfl⟩

theorem mergeLoop_sound {tol dur : ℚ} :
    ∀ (rest : List AudioSegment) (p : AudioSegment),
      List.Chain' (fun a c => segEnd a ≤ c.start) (p :: rest) →
      (∀ s ∈ p :: rest, 0 ≤ s.start ∧ 0 ≤ s.duration ∧ segEnd s ≤ dur) →
      List.Chain' (fun a c => segEnd a ≤ c.start) (mergeLoop tol p rest) ∧
      (∀ s ∈ mergeLoop tol p rest, 0 ≤ s.start ∧ 0 ≤ s.duration ∧ segEnd s ≤ dur) := by
  intro rest
  induction rest with
  | nil =>
    intro p hchain hbounds
    refine ⟨by simp [mergeLoop], ?_⟩
    intro s hs
    rw [mergeLoop] at hs
    simp only [List.mem_singleton] at hs
    subst hs
    exact hbounds _ (by simp)
  | cons s' r ih =>
    intro p hchain hbounds
    rw [mergeLoop]
    have hps' : segEnd p ≤ s'.start := (List.chain'_cons.mp hchain).1
    have hrest : List.Chain' (fun a c => segEnd a ≤ c.start) (s' :: r) :=
      (List.chain'_cons.mp hchain).2
    obtain ⟨hp1, hp2, hp3⟩ := hbounds p (by simp)
    obtain ⟨hs1, hs2, hs3⟩ := hbounds s' (by simp)
    by_cases hc : s'.kind = .talk ∧ p.kind = .talk ∧
        s'.start - (p.start + p.duration) ≤ tol + 1/1000000
    · rw [if_pos hc]
      refine ih _ ?_ ?_
      · rw [List.chain'_cons']
        refine ⟨?_, hrest.tail⟩
        intro y hy
        have : segEnd s' ≤ y.start := by
          rcases r with _ | ⟨y0, r0⟩
          · simp at hy
          · simp only [List.head?_cons, Option.mem_def, Option.some.injEq] at hy
            subst hy
            exact (List.chain'_cons.mp hrest).1
        show p.start + (s'.start + s'.duration - p.start) ≤ y.start
        rw [segEnd] at this
        linarith
      · intro s hs
        rcases List.mem_cons.mp hs with rfl | hs'
        · refine ⟨hp1, ?_, ?_⟩
          · show 0 ≤ s'.start + s'.duration - p.start
            rw [segEnd] at hps'
            linarith
          · show p.start + (s'.start + s'.duration - p.start) ≤ dur
            rw [segEnd] at hs3
            linarith
        · exact hbounds s (by simp [hs'])
    · rw [if_neg hc]
      obtain ⟨hch', hbd'⟩ := ih s' hrest (fun s hs => hbounds s (by simp [hs]))
      refine ⟨?_, ?_⟩
      · rw [List.chain'_cons']
        refine ⟨?_, hch'⟩
        intro y hy
        obtain ⟨q, t, hqt, hqk, hqs⟩ := mergeLoop_head_eq tol r s'
        rw [hqt] at hy
        simp only [List.head?_cons, Option.mem_def, Option.some.injEq] at hy
        subst hy
        rw [hqs]
        exact hps'
      · intro s hs
        rcases List.mem_cons.mp hs with rfl | hs'
        · exact ⟨hp1, hp2, hp3⟩
        · exact hbd' s hs'

theorem merge_sound {tol dur : ℚ} {l : List AudioSegment}
    (h : segsSound dur l) : segsSound dur (mergeAdjacentTalkSegments l tol) := by
  obtain ⟨hchain, hbounds, hne, hhead⟩ := h
  cases l with
  | nil => exact absurd rfl hne
  | cons s rest =>
    rw [mergeAdjacentTalkSegments]
    obtain ⟨hch', hbd'⟩ := mergeLoop_sound rest s hchain hbounds
    obtain ⟨q, t, hqt, hqk, hqs⟩ := mergeLoop_head_eq tol rest s
    refine ⟨hch', hbd', by rw [hqt]; simp, ?_⟩
    intro s' hs'
    rw [hqt] at hs'
    simp only [List.head?_cons, Option.some.injEq] at hs'
    subst hs'
    obtain ⟨h0, hk⟩ := hhead s rfl
    exact ⟨by rw [hqs, h0], by rw [hqk, hk]⟩

theorem rebuildFrom_head_fields {i : ℕ} {l : List AudioSegment} {s : AudioSegment}
    (h : (rebuildFrom i l).head? = some s) :
    ∃ s0, l.head? = some s0 ∧ s.start = s0.start ∧ s.kind = s0.kind ∧
      s.duration = s0.duration := by
  cases l with
  | nil => simp [rebuildFrom] at h
  | cons a t =>
    rw [rebuildFrom] at h
    simp only [List.head?_cons, Option.some.injEq] at h
    subst h
    exact ⟨a, rfl, rfl, rfl, rfl⟩

theorem rebuildFrom_mem_fields :
    ∀ {l : List AudioSegment} {i : ℕ} {s : AudioSegment}, s ∈ rebuildFrom i l →
      ∃ s0 ∈ l, s.start = s0.start ∧ s.kind = s0.kind ∧ s.duration = s0.duration := by
  intro l
  induction l with
  | nil => intro i s h; simp [rebuildFrom] at h
  | cons a t ih =>
    intro i s h
    rw [rebuildFrom] at h
    rcases List.mem_cons.mp h with rfl | h'
    · exact ⟨a, by simp, rfl, rfl, rfl⟩
    · obtain ⟨s0, hs0, h1, h2, h3⟩ := ih h'
      exact ⟨s0, by simp [hs0], h1, h2, h3⟩

theorem rebuildFrom_chain :
    ∀ {l : List AudioSegment} {i : ℕ},
      List.Chain' (fun a c => segEnd a ≤ c.start) l →
      List.Chain' (fun a c => segEnd a ≤ c.start) (rebuildFrom i l) := by
  intro l
  induction l with
  | nil => intro i _; simp [rebuildFrom]
  | cons a t ih =>
    intro i h
    rw [rebuildFrom, List.chain'_cons']
    refine ⟨?_, ih (List.Chain'.tail h)⟩
    intro y hy
    obtain ⟨s0, hs0, hstart, _, _⟩ := rebuildFrom_head_fields (Option.mem_def.mp hy)
    have : segEnd a ≤ s0.start := (List.chain'_cons'.mp h).1 s0 (Option.mem_def.mpr hs0)
    show segEnd a ≤ y.start
    rw [hstart]
    exact this

theorem rebuildSegmentIds_sound {dur : ℚ} {l : List AudioSegment}
    (h : segsSound dur l) : segsSound dur (rebuildSegmentIds l) := by
  obtain ⟨hchain, hbounds, hne, hhead⟩ := h
  refine ⟨rebuildFrom_chain hchain, ?_, ?_, ?_⟩
  · intro s hs
    obtain ⟨s0, hs0, h1, h2, h3⟩ := rebuildFrom_mem_fields hs
    obtain ⟨b1, b2, b3⟩ := hbounds s0 hs0
    refine ⟨by rw [h1]; exact b1, by rw [h3]; exact b2, ?_⟩
    rw [segEnd, h1, h3]
    exact b3
  · cases l with
    | nil => exact absurd rfl hne
    | cons a t => simp [rebuildSegmentIds, rebuildFrom]
  · intro s hs
    obtain ⟨s0, hs0, h1, h2, _⟩ := rebuildFrom_head_fields hs
    obtain ⟨hh1, hh2⟩ := hhead s0 hs0
    exact ⟨by rw [h1]; exact hh1, by rw [h2]; exact hh2⟩

theorem segmentsFromRms_sound {rms : List ℚ} {talkT silT wd dur : ℚ}
    (hwd : MIN_SEGMENT_DURATION_SEC < wd) (hdur : 0 ≤ dur)
    (hj : ∀ j : ℕ, j < rms.length → (j : ℚ) * wd ≤ dur) :
    segsSound dur (segmentsFromRms rms talkT silT wd dur) :=
  rebuildSegmentIds_sound (merge_sound (unshiftIdle_sound hwd hdur hj))

theorem computeRms_length (buffer : AudioBufferModel) :
    (computeRms buffer).length =
      blockCountOf buffer.length (blockSizeOf buffer.sampleRate) := by
  rw [computeRms]
  simp

theorem windowDuration_gt_min {sr : ℕ} (hsr : 8000 ≤ sr) :
    MIN_SEGMENT_DURATION_SEC < (blockSizeOf sr : ℚ) / (sr : ℚ) := by
  have hsrq : (8000 : ℚ) ≤ (sr : ℚ) := by exact_mod_cast hsr
  have hsr0 : (0 : ℚ) < (sr : ℚ) := by linarith
  have hF1 : (sr : ℚ) * WINDOW_SIZE_SEC - 1 < (⌊(sr : ℚ) * WINDOW_SIZE_SEC⌋ : ℚ) :=
    Int.sub_one_lt_floor _
  have hF0 : 0 ≤ ⌊(sr : ℚ) * WINDOW_SIZE_SEC⌋ :=
    Int.floor_nonneg.mpr (by rw [WINDOW_SIZE_SEC]; positivity)
  have hFtoNat : ((⌊(sr : ℚ) * WINDOW_SIZE_SEC⌋.toNat : ℕ) : ℚ) =
      (⌊(sr : ℚ) * WINDOW_SIZE_SEC⌋ : ℚ) := by
    exact_mod_cast Int.toNat_of_nonneg hF0
  have hbs : (⌊(sr : ℚ) * WINDOW_SIZE_SEC⌋ : ℚ) ≤ (blockSizeOf sr : ℚ) := by
    rw [blockSizeOf]
    rw [← hFtoNat]
    exact_mod_cast le_max_right 1 _
  rw [WINDOW_SIZE_SEC] at hF1 hbs
  rw [MIN_SEGMENT_DURATION_SEC, lt_div_iff hsr0]
  linarith

theorem block_time_le_duration {sr n : ℕ} (hsr : 1 ≤ sr) :
    ∀ j : ℕ, j < blockCountOf n (blockSizeOf sr) →
      (j : ℚ) * ((blockSizeOf sr : ℚ) / (sr : ℚ)) ≤ (n : ℚ) / (sr : ℚ) := by
  intro j hj
  have hsr0 : (0 : ℚ) < (sr : ℚ) := by exact_mod_cast hsr
  have hbs1 : 1 ≤ blockSizeOf sr := le_max_left _ _
  have hbs0 : (0 : ℚ) < (blockSizeOf sr : ℚ) := by exact_mod_cast hbs1
  rw [blockCountOf] at hj
  have hj1 : (j : ℤ) < ⌈(n : ℚ) / (blockSizeOf sr : ℚ)⌉ := Int.lt_toNat.mp hj
  have hj2 : ((j : ℚ) + 1) ≤ (⌈(n : ℚ) / (blockSizeOf sr : ℚ)⌉ : ℚ) := by
    exact_mod_cast hj1
  have hceil : (⌈(n : ℚ) / (blockSizeOf sr : ℚ)⌉ : ℚ) <
      (n : ℚ) / (blockSizeOf sr : ℚ) + 1 := Int.ceil_lt_add_one _
  have hjq : (j : ℚ) < (n : ℚ) / (blockSizeOf sr : ℚ) := by linarith
  have hjbs : (j : ℚ) * (blockSizeOf sr : ℚ) ≤ (n : ℚ) :=
    le_of_lt ((lt_div_iff hbs0).mp hjq)
  rw [mul_div_assoc']
  exact (div_le_div_right hsr0).mpr hjbs

/-- The conjunction claim C1 asserts of the segmenter's output: contiguous,
strictly time-ordered, non-overlapping, alternating kinds, starting at 0,
first entry idle, and covering the buffer's full duration. -/
def segmentsPartitionClaim (segs : List AudioSegment) (dur : ℚ) : Prop :=
  List.Chain' (fun a c => segEnd a = c.start ∧ a.start < c.start ∧ a.kind ≠ c.kind) segs ∧
  (∀ s, segs.head? = some s → s.start = 0 ∧ s.kind = .idle) ∧
  (∀ s, segs.getLast? = some s → segEnd s = dur)

theorem c1CexBlockSize : blockSizeOf 25 = 2 := by
  norm_num [blockSizeOf, WINDOW_SIZE_SEC]
  decide

theorem c1CexBlockCount : blockCountOf 3 2 = 2 := by
  have h32 : ⌈(3 : ℚ) / 2⌉ = (2 : ℤ) := by
    rw [Int.ceil_eq_iff]
    norm_num
  norm_num [blockCountOf, h32]
  try decide

/-- The loudness series of the C1 counterexample buffer evaluates to `[0, 1]`. -/
theorem c1CexRms : computeRms ⟨25, 3, [[0, 0, 1]]⟩ = [0, 1] := by
  norm_num [computeRms, c1CexBlockSize, c1CexBlockCount, ratSqrt,
    AudioBufferModel.numberOfChannels, List.range_succ,
    Rat.num_ofNat, Rat.den_ofNat, Nat.sqrt_one]

theorem c1CexThresholds : talkThresholdOf [0, 1] = 1/50 := by
  norm_num [talkThresholdOf, strongLevelOf, List.insertionSort, List.orderedInsert]

theorem c1CexScan :
    segmentsFromRms [0, 1] (1/50) (11/1000) (2/25) (3/25) =
      [⟨"idle-0", .idle, 0, 2/25⟩] := by
  norm_num [segmentsFromRms, scanSegments, scanBlocks, stepBlock, flushSegment,
    unshiftIdle, mergeAdjacentTalkSegments, mergeLoop, rebuildSegmentIds,
    rebuildFrom, kindString, MIN_SEGMENT_DURATION_SEC, SILENCE_HOLD_BLOCKS,
    TALK_GAP_TOLERANCE_SEC]
  try rfl
  try decide

/-- Counterexample to claim C1 as stated: a buffer whose final window turns
loud right before the end.  The final force-flush drops the trailing talk
range (0.04s ≤ the 0.05s minimum), so the output is a single idle segment
ending at 0.08s while the buffer lasts 0.12s — the segments do not cover the
full duration. -/
theorem analyzeAudio_partition_cex :
    ¬ segmentsPartitionClaim (analyzeAudioModel ⟨25, 3, [[0, 0, 1]]⟩).segments
      (AudioBufferModel.duration ⟨25, 3, [[0, 0, 1]]⟩) := by
  have heval : (analyzeAudioModel ⟨25, 3, [[0, 0, 1]]⟩).segments =
      [⟨"idle-0", .idle, 0, 2/25⟩] := by
    show segmentsFromRms (computeRms ⟨25, 3, [[0, 0, 1]]⟩) _ _ _ _ = _
    rw [c1CexRms, c1CexThresholds, silenceThresholdOf, c1CexBlockSize,
      AudioBufferModel.duration]
    norm_num
    exact c1CexScan
  intro h
  obtain ⟨_, _, hlast⟩ := h
  rw [heval] at hlast
  have := hlast ⟨"idle-0", .idle, 0, 2/25⟩ rfl
  rw [segEnd] at this
  norm_num [AudioBufferModel.duration] at this

/-- Claim C1, amended: for every decoded buffer (sample rates below Web
Audio's nominal minimum of 8000 Hz cannot occur), the segment list returned by
`analyzeAudio` is weakly time-ordered and non-overlapping (each segment ends
at or before the next starts), every segment lies inside `[0, duration]` with
a nonnegective span, the list is non-empty, and its first entry is an idle
segment starting at 0.  (Contiguity, strict ordering, full coverage and kind
alternation fail in general: flushes below the 0.05s minimum silently drop
time ranges — see the counterexample.) -/
theorem analyzeAudio_partition_sound (buffer : AudioBufferModel)
    (hsr : 8000 ≤ buffer.sampleRate) :
    segsSound buffer.duration (analyzeAudioModel buffer).segments := by
  have hsr1 : 1 ≤ buffer.sampleRate := by omega
  have hdur : 0 ≤ buffer.duration := by
    rw [AudioBufferModel.duration]
    positivity
  refine segmentsFromRms_sound (windowDuration_gt_min hsr) hdur ?_
  intro j hj
  rw [computeRms_length] at hj
  exact block_time_le_duration hsr1 j hj

/-- Witness for the amended C1 on a concrete one-sample buffer. -/
theorem analyzeAudio_partition_sound_witness :
    segsSound (AudioBufferModel.duration ⟨8000, 1, [[0]]⟩)
      (analyzeAudioModel ⟨8000, 1, [[0]]⟩).segments :=
  analyzeAudio_partition_sound _ (by norm_num)

/-! ## C7: the audio realigner and its destination ranges -/

/-- `totalSamples = Math.ceil(totalDuration * sampleRate)`. -/
def alignedTotalSamples (sampleRate : ℕ) (totalDuration : ℚ) : ℕ :=
  ⌈totalDuration * (sampleRate : ℚ)⌉.toNat

/-- The destination start sample of one talk plan:
`targetStart = Math.floor(plan.videoStart * sampleRate)`. -/
def alignedTargetStart (sampleRate : ℕ) (plan : TalkPlan) : ℤ :=
  ⌊plan.videoStart * (sampleRate : ℚ)⌋

/-- The number of samples `buildAlignedAudioBuffer` copies for one talk plan
(0 when the guards skip it):
`copyLength = min(sourceSamples, remainingTarget, audioLength - sourceStart)`. -/
def alignedCopyLength (audioLen totalSamples sampleRate : ℕ) (plan : TalkPlan) : ℤ :=
  let sourceStart := ⌊plan.audioStart * (sampleRate : ℚ)⌋
  let sourceSamples := ⌊plan.audioDuration * (sampleRate : ℚ)⌋
  let targetStart := alignedTargetStart sampleRate plan
  let remainingTarget := (totalSamples : ℤ) - targetStart
  if remainingTarget ≤ 0 ∨ sourceSamples ≤ 0 then 0
  else
    let copyLength := min sourceSamples (min remainingTarget ((audioLen : ℤ) - sourceStart))
    if copyLength ≤ 0 then 0 else copyLength

/-- `buildAlignedAudioBuffer` (audio.ts): a fresh silent buffer of
`ceil(totalDuration * sampleRate)` samples; for each talk plan, copy
`copyLength` samples per channel from the original buffer at `sourceStart`
into the output at `targetStart` (negative starts clamp to 0 as JavaScript's
`subarray` does). -/
def buildAlignedAudioBuffer (buffer : AudioBufferModel) (talkPlans : List TalkPlan)
    (totalDuration : ℚ) : AudioBufferModel :=
  let sampleRate := buffer.sampleRate
  let totalSamples := alignedTotalSamples sampleRate totalDuration
  let output0 : List (List ℚ) :=
    buffer.channels.map (fun _ => List.replicate totalSamples 0)
  let channelsOut := talkPlans.foldl (fun chans plan =>
    let copyLength := alignedCopyLength buffer.length totalSamples sampleRate plan
    if copyLength ≤ 0 then chans
    else
      let sourceStart := ⌊plan.audioStart * (sampleRate : ℚ)⌋.toNat
      let targetStart := (alignedTargetStart sampleRate plan).toNat
      List.zipWith (fun dst src =>
        (List.range dst.length).map (fun i =>
          if targetStart ≤ i ∧ i < targetStart + copyLength.toNat then
            src.getD (sourceStart + (i - targetStart)) 0
          else dst.getD i 0)) chans buffer.channels) output0
  ⟨sampleRate, totalSamples, channelsOut⟩

def c7Clips : List ClipAsset := [⟨"c7-idle", .idle, 1⟩, ⟨"c7-loop", .speechLoop, 199/200⟩]

def c7Segs : List AudioSegment := [⟨"c7-t1", .talk, 0, 1⟩, ⟨"c7-t2", .talk, 1, 1⟩]

def c7Plan : TimelinePlan :=
  ⟨[⟨⟨"c7-loop", .speechLoop, 199/200⟩, 0⟩, ⟨⟨"c7-loop", .speechLoop, 199/200⟩, 199/200⟩],
   [⟨"c7-t1", 0, 199/200, 0, 1⟩, ⟨"c7-t2", 199/200, 199/100, 1, 1⟩], 199/100⟩

theorem c7PlanRun : buildTimelinePlan 4 c7Segs c7Clips = .ok c7Plan := by
  norm_num [buildTimelinePlan, buildLoop, coverSegment, coverLoop, takeClip,
    maybeTakeClip, groupClips, groupClipsStep, c7Clips, c7Segs, initialSchedState,
    ClipLibrary.pool, Counters.get, Counters.bump, c7Plan]

/-- Counterexample to claim C7 as stated: two back-to-back talk segments of
1.0s covered by a 0.995s loop clip produce talk plans at videoStart 0 and
0.995; at 8000 Hz with a 16000-sample source and the plan's own total
duration, the realigner writes [0, 8000) for the first plan and
[7960, 15920) for the second — the ranges overlap in [7960, 8000). -/
theorem alignedRanges_overlap_cex :
    buildTimelinePlan 4 c7Segs c7Clips = .ok c7Plan ∧
    ∃ tp1 ∈ c7Plan.talkPlans, ∃ tp2 ∈ c7Plan.talkPlans, tp1 ≠ tp2 ∧
      ¬ (alignedTargetStart 8000 tp1 +
            alignedCopyLength 16000 (alignedTotalSamples 8000 c7Plan.totalDuration) 8000 tp1 ≤
          alignedTargetStart 8000 tp2 ∨
        alignedTargetStart 8000 tp2 +
            alignedCopyLength 16000 (alignedTotalSamples 8000 c7Plan.totalDuration) 8000 tp2 ≤
          alignedTargetStart 8000 tp1) := by
  refine ⟨c7PlanRun, ⟨"c7-t1", 0, 199/200, 0, 1⟩, by simp [c7Plan],
    ⟨"c7-t2", 199/200, 199/100, 1, 1⟩, by simp [c7Plan], by simp, ?_⟩
  have hts : alignedTotalSamples 8000 c7Plan.totalDuration = 15920 := by
    have hc : ⌈(199 : ℚ) / 100 * 8000⌉ = (15920 : ℤ) := by
      rw [Int.ceil_eq_iff]
      norm_num
    norm_num [alignedTotalSamples, c7Plan, hc]
    try decide
  rw [hts]
  norm_num [alignedTargetStart, alignedCopyLength]

theorem floor_add_floor_le (a b : ℚ) : ⌊a⌋ + ⌊b⌋ ≤ ⌊a + b⌋ := by
  apply Int.le_floor.mpr
  push_cast
  exact add_le_add (Int.floor_le a) (Int.floor_le b)

theorem floor_add_le_floor_add_ceil (a b : ℚ) : ⌊a + b⌋ ≤ ⌊a⌋ + ⌈b⌉ := by
  calc ⌊a + b⌋ ≤ ⌊a + (⌈b⌉ : ℚ)⌋ := Int.floor_mono (add_le_add_left (Int.le_ceil b) a)
    _ = ⌊a⌋ + ⌈b⌉ := Int.floor_add_int a ⌈b⌉

/-- Extraction of the scheduler's ordering invariant for whole runs: the talk
plans of a produced plan are pairwise ordered (`videoEnd ≤` next `videoStart`),
every span is forward, and every span obeys the coverage bound. -/
theorem buildTimelinePlan_ordered {fuel : ℕ} {segs : List AudioSegment}
    {clips : List ClipAsset} {plan : TimelinePlan}
    (hpos : ∀ c ∈ clips, 0 ≤ c.duration)
    (h : buildTimelinePlan fuel segs clips = .ok plan) :
    List.Pairwise (fun a b => a.videoEnd ≤ b.videoStart) plan.talkPlans ∧
    ∀ tp ∈ plan.talkPlans, tp.videoStart ≤ tp.videoEnd ∧ tpBound tp := by
  rw [buildTimelinePlan] at h
  by_cases h1 : (groupClips clips).idle = []
  · rw [if_pos h1] at h; exact absurd h (by simp)
  · rw [if_neg h1] at h
    by_cases h2 : (groupClips clips).speechLoop = []
    · rw [if_pos h2] at h; exact absurd h (by simp)
    · rw [if_neg h2] at h
      cases hb : buildLoop (groupClips clips) fuel segs initialSchedState with
      | error e => rw [hb] at h; exact absurd h (by simp)
      | ok st =>
        rw [hb] at h
        simp only [Except.ok.injEq] at h
        subst h
        have hrel := buildLoop_rel hb
        have hnn : libNonneg (groupClips clips) := fun ty cl hcl =>
          hpos cl (groupClips_pool_mem hcl)
        have hord0 : tpOrdered initialSchedState := by
          constructor <;> simp [initialSchedState, tpOrdered]
        have hord := (hrel.2.2 hnn).2 hord0
        have hbnd := hrel.1 (by simp [initialSchedState])
        exact ⟨hord.1, fun tp htp => ⟨(hord.2 tp htp).1, hbnd tp htp⟩⟩

/-- Claim C7 (amended): for every pair of talk plans in one produced timeline
plan (clips having nonnegative durations), the destination ranges the realigner
writes are ordered, and an earlier plan's range extends past the next plan's
start by at most `⌈sampleRate / 100⌉` samples — the image of the scheduler's
0.01 s coverage epsilon.  Exact disjointness does not hold. -/
theorem alignedRanges_overlap_bound {fuel : ℕ} {segs : List AudioSegment}
    {clips : List ClipAsset} {plan : TimelinePlan}
    (audioLen totalSamples sampleRate : ℕ)
    (hpos : ∀ c ∈ clips, 0 ≤ c.duration)
    (h : buildTimelinePlan fuel segs clips = .ok plan) :
    List.Pairwise (fun a b =>
      alignedTargetStart sampleRate a +
        alignedCopyLength audioLen totalSamples sampleRate a ≤
      alignedTargetStart sampleRate b + ⌈(sampleRate : ℚ) / 100⌉) plan.talkPlans := by
  obtain ⟨hpw, hmem⟩ := buildTimelinePlan_ordered hpos h
  refine List.Pairwise.imp_of_mem ?_ hpw
  intro a b ha hb hab
  obtain ⟨hav, habd⟩ := hmem a ha
  have hsr : (0 : ℚ) ≤ (sampleRate : ℚ) := by positivity
  have hceil : (0 : ℤ) ≤ ⌈(sampleRate : ℚ) / 100⌉ := Int.ceil_nonneg (by positivity)
  have hvs : ⌊a.videoStart * (sampleRate : ℚ)⌋ ≤ ⌊b.videoStart * (sampleRate : ℚ)⌋ :=
    Int.floor_mono (mul_le_mul_of_nonneg_right (le_trans hav hab) hsr)
  have hkey : ⌊a.videoStart * (sampleRate : ℚ)⌋ + ⌊a.audioDuration * (sampleRate : ℚ)⌋ ≤
      ⌊b.videoStart * (sampleRate : ℚ)⌋ + ⌈(sampleRate : ℚ) / 100⌉ := by
    have hsum : a.videoStart + a.audioDuration ≤ b.videoStart + 1/100 := by
      have := habd
      rw [tpBound] at this
      linarith
    calc ⌊a.videoStart * (sampleRate : ℚ)⌋ + ⌊a.audioDuration * (sampleRate : ℚ)⌋
        ≤ ⌊a.videoStart * (sampleRate : ℚ) + a.audioDuration * (sampleRate : ℚ)⌋ :=
          floor_add_floor_le _ _
      _ ≤ ⌊b.videoStart * (sampleRate : ℚ) + (sampleRate : ℚ) / 100⌋ := by
          apply Int.floor_mono
          have hstep : (a.videoStart + a.audioDuration) * (sampleRate : ℚ) ≤
              (b.videoStart + 1/100) * (sampleRate : ℚ) :=
            mul_le_mul_of_nonneg_right hsum hsr
          nlinarith [hstep]
      _ ≤ ⌊b.videoStart * (sampleRate : ℚ)⌋ + ⌈(sampleRate : ℚ) / 100⌉ :=
          floor_add_le_floor_add_ceil _ _
  rw [alignedTargetStart, alignedCopyLength]
  simp only [alignedTargetStart]
  split_ifs with hskip hlen
  · omega
  · omega
  · have hle : min (⌊a.audioDuration * (sampleRate : ℚ)⌋)
        (min ((totalSamples : ℤ) - ⌊a.videoStart * (sampleRate : ℚ)⌋)
          ((audioLen : ℤ) - ⌊a.audioStart * (sampleRate : ℚ)⌋)) ≤
        ⌊a.audioDuration * (sampleRate : ℚ)⌋ := min_le_left _ _
    omega

theorem alignedRanges_overlap_bound_witness :
    (∀ c ∈ c7Clips, 0 ≤ c.duration) ∧
    List.Pairwise (fun a b =>
      alignedTargetStart 8000 a + alignedCopyLength 16000 15920 8000 a ≤
        alignedTargetStart 8000 b + ⌈(8000 : ℚ) / 100⌉) c7Plan.talkPlans :=
  ⟨by norm_num [c7Clips],
   alignedRanges_overlap_bound 16000 15920 8000 (by norm_num [c7Clips]) c7PlanRun⟩
